import Mathlib

/-!
Verification of the UrduSpeechWriter repository (two variants:
`UrduSpeechWriter.py`, the "local" variant, and `UrduSpeechWriterCloud.py`,
the "cloud" variant).

Python strings are modelled as `List Char` (`PyStr`): every string
operation the program performs (slicing `s[2:]`, `startswith`, `strip`,
`split`, `join`, `replace`, concatenation) is a character-level operation,
so the list model is exact.  The whitespace class is the ASCII part of
Python's; none of the program's behaviour examined here depends on
non-ASCII whitespace.

Remote HTTP calls are modelled by an environment `env : Nat → NetOutcome`
giving the outcome of each attempt of the retry loop, and JSON parsing of
the model's textual reply (`json.loads` plus the subsequent `.get` /
`.strip` accesses) by an oracle `jp : PyStr → Option ProofResult`, where
`none` covers every path on which that block raises (invalid JSON,
non-dict result, non-string fields).
-/

namespace UrduSpec

/-- Python strings as character lists. -/
abbrev PyStr := List Char

/-- Coerce a Lean string literal to the model. -/
def pyS (s : String) : PyStr := s.data

/-- ASCII whitespace as recognised by Python's `str.split()` / `str.strip()`. -/
def pyIsSpace (c : Char) : Bool :=
  c = ' ' || c = '\t' || c = '\n' || c = '\r' || c = '\x0b' || c = '\x0c'

/-- Helper for `pySplit`: walk the characters accumulating the current token
(reversed).  Mirrors `str.split()` with no argument: runs of whitespace
separate tokens and produce no empty tokens. -/
def pySplitGo : List Char → List Char → List PyStr
  | [], cur => if cur = [] then [] else [cur.reverse]
  | c :: cs, cur =>
      if pyIsSpace c then
        if cur = [] then pySplitGo cs [] else cur.reverse :: pySplitGo cs []
      else pySplitGo cs (c :: cur)

/-- Python `s.split()` (no separator argument). -/
def pySplit (s : PyStr) : List PyStr := pySplitGo s []

/-- Python `s.strip()`. -/
def pyStrip (s : PyStr) : PyStr :=
  ((s.dropWhile pyIsSpace).reverse.dropWhile pyIsSpace).reverse

/-- Python `s.rstrip()`. -/
def pyRstrip (s : PyStr) : PyStr :=
  (s.reverse.dropWhile pyIsSpace).reverse

/-- Python slice `l[lo:hi]`. -/
def pySlice (l : List α) (lo hi : Nat) : List α := (l.take hi).drop lo

/-- Replacement loop of Python `s.replace(pat, rep)` for a nonempty pattern:
leftmost-first, non-overlapping, all occurrences. -/
def pyReplaceGo (pat rep : PyStr) (hp : pat ≠ []) : PyStr → PyStr
  | [] => []
  | c :: cs =>
      if h : pat.isPrefixOf (c :: cs) then
        rep ++ pyReplaceGo pat rep hp ((c :: cs).drop pat.length)
      else c :: pyReplaceGo pat rep hp cs
termination_by s => s.length
decreasing_by
  · have hle : pat.length ≤ (c :: cs).length := by
      have := List.IsPrefix.length_le (List.isPrefixOf_iff_prefix.mp h)
      simpa using this
    have h1 : 1 ≤ pat.length := by
      cases pat with
      | nil => exact absurd rfl hp
      | cons a l => simp
    simp only [List.length_drop]
    omega
  · simp

/-- Python `s.replace(pat, rep)`.  The empty-pattern case (insert `rep`
between all characters) is included for totality; the program only calls
`replace` with a pattern that is nonempty after stripping. -/
def pyReplace (s pat rep : PyStr) : PyStr :=
  if h : pat = [] then rep ++ s.flatMap (fun c => c :: rep)
  else pyReplaceGo pat rep h s

/-! ## Model of the HTTP / retry environment -/

/-- What `resp.json()` (and the subsequent `["choices"][0]["message"]["content"]`
access) yields for one received response. -/
inductive JsonBody where
  /-- `resp.json()` itself raises (body is not JSON); carries the message. -/
  | invalid (msg : PyStr)
  /-- valid JSON without a usable `"choices"` entry (`KeyError` on access). -/
  | noChoices
  /-- `choices[0].message.content` is the given text. -/
  | content (text : PyStr)
deriving DecidableEq

/-- One received HTTP response: status code plus body model. -/
structure HttpResp where
  status : Nat
  body : JsonBody
deriving DecidableEq

/-- Outcome of one `requests.post` attempt. -/
inductive NetOutcome where
  /-- `requests.exceptions.Timeout` raised. -/
  | timeout
  /-- some other exception raised by the request; carries its message. -/
  | exc (msg : PyStr)
  /-- a response object was returned. -/
  | ok (resp : HttpResp)
deriving DecidableEq

/-- Observable side effects of the retry loops. -/
inductive Ev where
  | warn (msg : PyStr)
  | sleep (secs : Nat)
deriving DecidableEq

/-- One entry of the proofreader's `changes` array. -/
structure Change where
  frm : PyStr
  toW : PyStr
  reason : PyStr
deriving DecidableEq

/-- A successfully parsed proofread payload, with the dict defaults of
`result.get("corrected", "")` / `result.get("changes", [])` already applied. -/
structure ProofResult where
  corrected : PyStr
  changes : List Change
deriving DecidableEq

end UrduSpec

namespace UrduSpec.UrduSpeechWriter

open UrduSpec

/-- Retry loop of `openrouter_translate_to_urdu` (local variant).
`attempt` is the current index, the second argument the remaining budget.
All exceptions are caught: a timeout or any other exception emits a warning,
sleeps 2 seconds and retries; a parsed body lacking `"choices"` silently
falls through to the next attempt; a body with content returns it stripped
(the status code is never consulted). -/
def translateGo (env : Nat → NetOutcome) : Nat → Nat → PyStr × List Ev
  | _, 0 => (pyS "❌ Failed to get translation after retries.", [])
  | attempt, rem + 1 =>
    match env attempt with
    | .ok resp =>
        match resp.body with
        | .content t => (pyStrip t, [])
        | .noChoices => translateGo env (attempt + 1) rem
        | .invalid m =>
            let r := translateGo env (attempt + 1) rem
            (r.1, .warn (pyS "API Error: " ++ m) :: .sleep 2 :: r.2)
    | .timeout =>
        let r := translateGo env (attempt + 1) rem
        (r.1, .warn (pyS "Request timed out. Retrying…") :: .sleep 2 :: r.2)
    | .exc m =>
        let r := translateGo env (attempt + 1) rem
        (r.1, .warn (pyS "API Error: " ++ m) :: .sleep 2 :: r.2)

/-- `openrouter_translate_to_urdu(text, retries, timeout_sec)` (local variant);
the text and per-attempt timeout only shape the request, so the model keeps
the environment and the retry budget (default 2 in the source). -/
def openrouter_translate_to_urdu (env : Nat → NetOutcome) (retries : Nat) :
    PyStr × List Ev :=
  translateGo env 0 retries

/-- Retry loop of `openrouter_proofread_urdu` (local variant).  A received
content that is truthy is parsed: on success the `corrected` field is
stripped and returned with the changes; on any parse failure the whole raw
reply, stripped, is returned with an empty change list.  Falsy/missing
content falls through to the next attempt.  Timeouts and other exceptions
warn, sleep 2 and retry. -/
def proofreadGo (env : Nat → NetOutcome) (jp : PyStr → Option ProofResult) :
    Nat → Nat → (Option ProofResult × Option PyStr) × List Ev
  | _, 0 => ((none, some (pyS "❌ Failed to proofread after retries.")), [])
  | attempt, rem + 1 =>
    match env attempt with
    | .ok resp =>
        match resp.body with
        | .content t =>
            if t = [] then proofreadGo env jp (attempt + 1) rem
            else
              match jp t with
              | some r => ((some ⟨pyStrip r.corrected, r.changes⟩, none), [])
              | none => ((some ⟨pyStrip t, []⟩, none), [])
        | .noChoices => proofreadGo env jp (attempt + 1) rem
        | .invalid m =>
            let r := proofreadGo env jp (attempt + 1) rem
            (r.1, .warn (pyS "API Error: " ++ m) :: .sleep 2 :: r.2)
    | .timeout =>
        let r := proofreadGo env jp (attempt + 1) rem
        (r.1, .warn (pyS "Request timed out. Retrying…") :: .sleep 2 :: r.2)
    | .exc m =>
        let r := proofreadGo env jp (attempt + 1) rem
        (r.1, .warn (pyS "API Error: " ++ m) :: .sleep 2 :: r.2)

/-- `openrouter_proofread_urdu(urdu_text, source_text, retries, timeout_sec)`
(local variant). -/
def openrouter_proofread_urdu (env : Nat → NetOutcome)
    (jp : PyStr → Option ProofResult) (retries : Nat) :
    (Option ProofResult × Option PyStr) × List Ev :=
  proofreadGo env jp 0 retries

end UrduSpec.UrduSpeechWriter

namespace UrduSpec.UrduSpeechWriterCloud

open UrduSpec

/-- Retry loop of `translate_to_urdu` (cloud variant).  Only
`requests.exceptions.Timeout` is caught (warn, sleep 2, retry); any other
exception propagates out of the function, modelled as `Except.error`.
A non-200 status silently falls through to the next attempt; at 200 the
`["choices"][0]["message"]["content"]` access is unguarded, so a missing
key or an unparseable body raises and propagates. -/
def translateGo (env : Nat → NetOutcome) : Nat → Nat → Except PyStr (PyStr × List Ev)
  | _, 0 => .ok (pyS "❌ Failed to translate.", [])
  | attempt, rem + 1 =>
    match env attempt with
    | .ok resp =>
        if resp.status = 200 then
          match resp.body with
          | .content t => .ok (pyStrip t, [])
          | .noChoices => .error (pyS "KeyError: 'choices'")
          | .invalid m => .error m
        else translateGo env (attempt + 1) rem
    | .timeout =>
        (translateGo env (attempt + 1) rem).map fun r =>
          (r.1, .warn (pyS "Request timed out. Retrying…") :: .sleep 2 :: r.2)
    | .exc m => .error m

/-- `translate_to_urdu(text, retries, timeout_sec)` (cloud variant). -/
def translate_to_urdu (env : Nat → NetOutcome) (retries : Nat) :
    Except PyStr (PyStr × List Ev) :=
  translateGo env 0 retries

/-- Retry loop of `transcribe_audio_openrouter` (cloud variant).  Like the
cloud translator but warns (without sleeping) on a non-200 status; the
warning's interpolated status code and response text are elided from the
model.  Only timeouts are caught. -/
def transcribeGo (env : Nat → NetOutcome) : Nat → Nat → Except PyStr (PyStr × List Ev)
  | _, 0 => .ok (pyS "❌ Failed to transcribe audio.", [])
  | attempt, rem + 1 =>
    match env attempt with
    | .ok resp =>
        if resp.status = 200 then
          match resp.body with
          | .content t => .ok (pyStrip t, [])
          | .noChoices => .error (pyS "KeyError: 'choices'")
          | .invalid m => .error m
        else
          (transcribeGo env (attempt + 1) rem).map fun r =>
            (r.1, .warn (pyS "API returned status") :: r.2)
    | .timeout =>
        (transcribeGo env (attempt + 1) rem).map fun r =>
          (r.1, .warn (pyS "Request timed out. Retrying…") :: .sleep 2 :: r.2)
    | .exc m => .error m

/-- `transcribe_audio_openrouter(audio_bytes, retries, timeout_sec)`
(cloud variant). -/
def transcribe_audio_openrouter (env : Nat → NetOutcome) (retries : Nat) :
    Except PyStr (PyStr × List Ev) :=
  transcribeGo env 0 retries

/-- Retry loop of `proofread_urdu` (cloud variant).  At status 200 the
content is read (unguarded access: missing key / bad body raises and
propagates), then `json.loads` is attempted: on success it returns
`(result.get("corrected",""), result.get("changes",[]))` unstripped; on
parse failure `(text, [])` with the raw reply.  A non-200 status silently
retries; only timeouts are caught; after the budget it returns `(None, [])`. -/
def proofreadGo (env : Nat → NetOutcome) (jp : PyStr → Option ProofResult) :
    Nat → Nat → Except PyStr ((Option PyStr × List Change) × List Ev)
  | _, 0 => .ok ((none, []), [])
  | attempt, rem + 1 =>
    match env attempt with
    | .ok resp =>
        if resp.status = 200 then
          match resp.body with
          | .content t =>
              match jp t with
              | some r => .ok ((some r.corrected, r.changes), [])
              | none => .ok ((some t, []), [])
          | .noChoices => .error (pyS "KeyError: 'choices'")
          | .invalid m => .error m
        else proofreadGo env jp (attempt + 1) rem
    | .timeout =>
        (proofreadGo env jp (attempt + 1) rem).map fun r =>
          (r.1, .warn (pyS "Request timed out. Retrying…") :: .sleep 2 :: r.2)
    | .exc m => .error m

/-- `proofread_urdu(urdu_text, source_text, retries, timeout_sec)`
(cloud variant). -/
def proofread_urdu (env : Nat → NetOutcome) (jp : PyStr → Option ProofResult)
    (retries : Nat) : Except PyStr ((Option PyStr × List Change) × List Ev) :=
  proofreadGo env jp 0 retries

end UrduSpec.UrduSpeechWriterCloud

namespace UrduSpec

/-! ## Session state (both `main` functions) -/

/-- The three session-state fields both variants keep. -/
structure DraftState where
  original_urdu : PyStr
  urdu_edit : PyStr
  last_source : PyStr
deriving DecidableEq

/-- Decoding environment for one audio clip: what
`AudioSegment.from_file(..., format="wav")` and `..., format="webm")` would
each yield (a decoded segment, modelled opaquely as `Nat`, or the raised
exception's message). -/
structure AudioEnv where
  wav : Except PyStr Nat
  webm : Except PyStr Nat

/-- The try/except cascade of the local `main` over an uploaded clip:
WAV first, WebM only if that raised, and if both raise the error shown is
`"❌ Could not decode audio: "` followed by the WebM failure's message
(after which `st.stop()` aborts the run). -/
def normalizeAudio (aenv : AudioEnv) : Except PyStr Nat :=
  match aenv.wav with
  | .ok a => .ok a
  | .error _ =>
      match aenv.webm with
      | .ok a => .ok a
      | .error e => .error (pyS "❌ Could not decode audio: " ++ e)

end UrduSpec

namespace UrduSpec.UrduSpeechWriter

open UrduSpec

/-- The replace-form handler of the local `main`: if either field is empty
after stripping, warn ("Both fields must be filled.") and leave the text
unchanged; otherwise replace all occurrences.  The boolean records whether
the validation warning was shown. -/
def replaceStep (s : DraftState) (o n : PyStr) : DraftState × Bool :=
  if pyStrip o = [] ∨ pyStrip n = [] then (s, true)
  else ({ s with urdu_edit := pyReplace s.urdu_edit o n }, false)

/-- User events of the local `main` that touch session state. -/
inductive LEvent where
  /-- an audio clip arrives: decoding environment, recognizer outcome for
  the decoded clip, and the translator's network environment. -/
  | audio (aenv : AudioEnv) (recog : Nat → Except PyStr PyStr)
      (tenv : Nat → NetOutcome)
  /-- the user edits the text area. -/
  | edit (t : PyStr)
  /-- the replace form is submitted. -/
  | replaceWord (o n : PyStr)
  /-- the "Use corrected" button applies a proofread correction. -/
  | useCorrected (c : PyStr)
  /-- "Save to file" (session state untouched). -/
  | save
  /-- the "Clear" button. -/
  | clear

/-- State transition of the local `main` for one event.  On the audio path,
decode or recognition failure calls `st.stop()` before any state write; a
translation is requested only when `original_urdu` is empty, and then all
three fields are set.  "Clear" resets all three fields to empty. -/
def step (e : LEvent) (s : DraftState) : DraftState :=
  match e with
  | .audio aenv recog tenv =>
      match normalizeAudio aenv with
      | .error _ => s
      | .ok a =>
          match recog a with
          | .error _ => s
          | .ok src =>
              if s.original_urdu = [] then
                let u := (openrouter_translate_to_urdu tenv 2).1
                ⟨u, u, src⟩
              else s
  | .edit t => { s with urdu_edit := t }
  | .replaceWord o n => (replaceStep s o n).1
  | .useCorrected c => { s with urdu_edit := c }
  | .save => s
  | .clear => ⟨[], [], []⟩

end UrduSpec.UrduSpeechWriter

namespace UrduSpec.UrduSpeechWriterCloud

open UrduSpec

/-- The replace-form handler of the cloud `main`: replaces only when both
fields are nonempty after stripping, and shows no warning otherwise (there
is no `else` branch in the source).  The boolean records whether a
validation warning was shown — always `false` here. -/
def replaceStep (s : DraftState) (o n : PyStr) : DraftState × Bool :=
  if pyStrip o ≠ [] ∧ pyStrip n ≠ [] then
    ({ s with urdu_edit := pyReplace s.urdu_edit o n }, false)
  else (s, false)

/-- User events of the cloud `main` that touch session state. -/
inductive CEvent where
  /-- an audio clip arrives: network environments for the transcriber and
  the translator. -/
  | audio (tenvT tenvU : Nat → NetOutcome)
  | edit (t : PyStr)
  | replaceWord (o n : PyStr)
  /-- the "Proofread Urdu" button. -/
  | proofreadClick (penv : Nat → NetOutcome) (jp : PyStr → Option ProofResult)
  | save
  | clear

/-- State transition of the cloud `main` for one event.  A crash
(propagated exception) aborts the script run before any state write.
Transcripts beginning with the failure marker are shown as errors and do
not advance the pipeline; a translation is requested only when
`original_urdu` is empty.  The proofread button overwrites `urdu_edit`
with the corrected text when that text is truthy. -/
def step (e : CEvent) (s : DraftState) : DraftState :=
  match e with
  | .audio tenvT tenvU =>
      match transcribe_audio_openrouter tenvT 2 with
      | .error _ => s
      | .ok r =>
          if (pyS "❌").isPrefixOf r.1 then s
          else if s.original_urdu = [] then
            match translate_to_urdu tenvU 2 with
            | .error _ => s
            | .ok u => ⟨u.1, u.1, r.1⟩
          else s
  | .edit t => { s with urdu_edit := t }
  | .replaceWord o n => (replaceStep s o n).1
  | .proofreadClick penv jp =>
      match proofread_urdu penv jp 2 with
      | .error _ => s
      | .ok r =>
          match r.1.1 with
          | some c => if c ≠ [] then { s with urdu_edit := c } else s
          | none => s
  | .save => s
  | .clear => ⟨[], [], []⟩

end UrduSpec.UrduSpeechWriterCloud

namespace UrduSpec

/-! ## Helper lemmas: exhausted retries under an always-timeout environment -/

theorem translateGo_allTimeout_fst (env : Nat → NetOutcome)
    (h : ∀ n, env n = .timeout) :
    ∀ rem attempt, (UrduSpeechWriter.translateGo env attempt rem).1
      = pyS "❌ Failed to get translation after retries." := by
  intro rem
  induction rem with
  | zero => intro attempt; rfl
  | succ rem ih =>
      intro attempt
      simp only [UrduSpeechWriter.translateGo, h attempt]
      exact ih (attempt + 1)

theorem proofreadGo_allTimeout_fst (env : Nat → NetOutcome)
    (jp : PyStr → Option ProofResult) (h : ∀ n, env n = .timeout) :
    ∀ rem attempt, (UrduSpeechWriter.proofreadGo env jp attempt rem).1
      = (none, some (pyS "❌ Failed to proofread after retries.")) := by
  intro rem
  induction rem with
  | zero => intro attempt; rfl
  | succ rem ih =>
      intro attempt
      simp only [UrduSpeechWriter.proofreadGo, h attempt]
      exact ih (attempt + 1)

theorem cloudTranslateGo_allTimeout (env : Nat → NetOutcome)
    (h : ∀ n, env n = .timeout) :
    ∀ rem attempt, (UrduSpeechWriterCloud.translateGo env attempt rem).map Prod.fst
      = .ok (pyS "❌ Failed to translate.") := by
  intro rem
  induction rem with
  | zero => intro attempt; rfl
  | succ rem ih =>
      intro attempt
      have hih := ih (attempt + 1)
      simp only [UrduSpeechWriterCloud.translateGo, h attempt]
      cases hrec : UrduSpeechWriterCloud.translateGo env (attempt + 1) rem with
      | error e => rw [hrec] at hih; exact absurd hih (by simp [Except.map])
      | ok v => rw [hrec] at hih; simpa [Except.map] using hih

theorem cloudProofreadGo_allTimeout (env : Nat → NetOutcome)
    (jp : PyStr → Option ProofResult) (h : ∀ n, env n = .timeout) :
    ∀ rem attempt, (UrduSpeechWriterCloud.proofreadGo env jp attempt rem).map Prod.fst
      = .ok (none, ([] : List Change)) := by
  intro rem
  induction rem with
  | zero => intro attempt; rfl
  | succ rem ih =>
      intro attempt
      have hih := ih (attempt + 1)
      simp only [UrduSpeechWriterCloud.proofreadGo, h attempt]
      cases hrec : UrduSpeechWriterCloud.proofreadGo env jp (attempt + 1) rem with
      | error e => rw [hrec] at hih; exact absurd hih (by simp [Except.map])
      | ok v => rw [hrec] at hih; simpa [Except.map] using hih

/-! ## Claim C1 -/

/-- C1 counterexample: the local `openrouter_proofread_urdu`, given a reply
`" x "` that is not valid JSON, returns `{corrected: "x", changes: []}` —
the corrected field is the reply *stripped* (`text.strip()`), not the raw
reply text, so the claim as stated fails on the local variant. -/
theorem C1_counterexample :
    UrduSpeechWriter.openrouter_proofread_urdu
        (fun _ => .ok ⟨200, .content (pyS " x ")⟩) (fun _ => none) 2
      = ((some ⟨pyS "x", []⟩, none), [])
    ∧ pyS "x" ≠ pyS " x " := by
  exact ⟨rfl, by decide⟩

/-- C1 (amended): on a received reply that is not valid JSON, the proofread
operation does not fail and returns an empty change list, with the corrected
field being the raw reply text stripped of leading/trailing whitespace in
the local variant and the raw reply text unmodified in the cloud variant. -/
theorem C1_theorem : ∀ (env : Nat → NetOutcome) (jp : PyStr → Option ProofResult)
    (rem : Nat) (t : PyStr) (st : Nat),
    env 0 = .ok ⟨st, .content t⟩ → t ≠ [] → jp t = none →
    UrduSpeechWriter.openrouter_proofread_urdu env jp (rem + 1)
      = ((some ⟨pyStrip t, []⟩, none), [])
    ∧ (st = 200 →
        UrduSpeechWriterCloud.proofread_urdu env jp (rem + 1)
          = .ok ((some t, []), [])) := by
  intro env jp rem t st h0 ht hjp
  constructor
  · simp only [UrduSpeechWriter.openrouter_proofread_urdu,
      UrduSpeechWriter.proofreadGo, h0]
    simp [ht, hjp]
  · intro h200
    subst h200
    simp only [UrduSpeechWriterCloud.proofread_urdu,
      UrduSpeechWriterCloud.proofreadGo, h0]
    simp [hjp]

/-- C1 witness. -/
theorem C1_witness :
    UrduSpeechWriter.openrouter_proofread_urdu
        (fun _ => .ok ⟨200, .content (pyS "not json")⟩) (fun _ => none) 2
      = ((some ⟨pyStrip (pyS "not json"), []⟩, none), [])
    ∧ UrduSpeechWriterCloud.proofread_urdu
        (fun _ => .ok ⟨200, .content (pyS "not json")⟩) (fun _ => none) 2
      = .ok ((some (pyS "not json"), []), []) := by
  have h := C1_theorem (fun _ => .ok ⟨200, .content (pyS "not json")⟩)
    (fun _ => none) 1 (pyS "not json") 200 rfl (by decide) rfl
  exact ⟨h.1, h.2 rfl⟩

/-! ## Claim C2 -/

/-- C2 counterexample: when every attempt times out, the cloud
`proofread_urdu` returns `(None, [])` — the second component is the empty
changes list, the same value as on a successful call, not an explicit error
value; the claim that the Proofreader pairs its null result with an
explicit error fails on the cloud variant. -/
theorem C2_counterexample :
    UrduSpeechWriterCloud.proofread_urdu (fun _ => .timeout) (fun _ => none) 2
      = .ok ((none, ([] : List Change)),
             [.warn (pyS "Request timed out. Retrying…"), .sleep 2,
              .warn (pyS "Request timed out. Retrying…"), .sleep 2]) := by
  rfl

/-- C2 (amended): when every attempt times out, both translators return
their `"❌ ..."` failure sentinel (beginning with the failure marker) rather
than throwing; the local proofreader returns `(None, explicit error
string)`, while the cloud proofreader returns `(None, [])` with no explicit
error value. -/
theorem C2_theorem : ∀ (env : Nat → NetOutcome) (jp : PyStr → Option ProofResult)
    (retries : Nat), (∀ n, env n = .timeout) →
    (UrduSpeechWriter.openrouter_translate_to_urdu env retries).1
      = pyS "❌ Failed to get translation after retries."
    ∧ (pyS "❌").isPrefixOf
        (UrduSpeechWriter.openrouter_translate_to_urdu env retries).1
    ∧ (UrduSpeechWriterCloud.translate_to_urdu env retries).map Prod.fst
      = .ok (pyS "❌ Failed to translate.")
    ∧ (UrduSpeechWriter.openrouter_proofread_urdu env jp retries).1
      = (none, some (pyS "❌ Failed to proofread after retries."))
    ∧ (UrduSpeechWriterCloud.proofread_urdu env jp retries).map Prod.fst
      = .ok (none, ([] : List Change)) := by
  intro env jp retries h
  refine ⟨translateGo_allTimeout_fst env h retries 0, ?_,
    cloudTranslateGo_allTimeout env h retries 0,
    proofreadGo_allTimeout_fst env jp h retries 0,
    cloudProofreadGo_allTimeout env jp h retries 0⟩
  rw [UrduSpeechWriter.openrouter_translate_to_urdu,
    translateGo_allTimeout_fst env h retries 0]
  decide

/-- C2 witness. -/
theorem C2_witness :
    (UrduSpeechWriter.openrouter_translate_to_urdu (fun _ => .timeout) 2).1
      = pyS "❌ Failed to get translation after retries."
    ∧ (pyS "❌").isPrefixOf
        (UrduSpeechWriter.openrouter_translate_to_urdu (fun _ => .timeout) 2).1
    ∧ (UrduSpeechWriterCloud.translate_to_urdu (fun _ => .timeout) 2).map Prod.fst
      = .ok (pyS "❌ Failed to translate.")
    ∧ (UrduSpeechWriter.openrouter_proofread_urdu (fun _ => .timeout)
        (fun _ => none) 2).1
      = (none, some (pyS "❌ Failed to proofread after retries."))
    ∧ (UrduSpeechWriterCloud.proofread_urdu (fun _ => .timeout)
        (fun _ => none) 2).map Prod.fst
      = .ok (none, ([] : List Change)) :=
  C2_theorem (fun _ => .timeout) (fun _ => none) 2 (fun _ => rfl)

/-! ## Claim C3 -/

/-- C3 counterexample: in the cloud variant a non-timeout exception on the
first attempt is not caught at all — no warning, no delay, no next attempt:
the exception propagates out of `translate_to_urdu` as a crash. -/
theorem C3_counterexample :
    UrduSpeechWriterCloud.translate_to_urdu (fun _ => .exc (pyS "ConnectionError")) 2
      = .error (pyS "ConnectionError") := by
  rfl

/-- C3 (amended): in the local variant a non-timeout exception is handled
like a timeout — a warning is emitted, the fixed 2-unit delay is waited and
the next attempt proceeds, so no exception crashes the operation; in the
cloud variant only timeouts are caught, and any other exception propagates
out of every network helper as a crash. -/
theorem C3_theorem : ∀ (env : Nat → NetOutcome) (jp : PyStr → Option ProofResult)
    (m : PyStr) (attempt rem : Nat),
    env attempt = .exc m →
    UrduSpeechWriter.translateGo env attempt (rem + 1)
      = ((UrduSpeechWriter.translateGo env (attempt + 1) rem).1,
         .warn (pyS "API Error: " ++ m) :: .sleep 2 ::
           (UrduSpeechWriter.translateGo env (attempt + 1) rem).2)
    ∧ UrduSpeechWriter.proofreadGo env jp attempt (rem + 1)
      = ((UrduSpeechWriter.proofreadGo env jp (attempt + 1) rem).1,
         .warn (pyS "API Error: " ++ m) :: .sleep 2 ::
           (UrduSpeechWriter.proofreadGo env jp (attempt + 1) rem).2)
    ∧ UrduSpeechWriterCloud.translateGo env attempt (rem + 1) = .error m
    ∧ UrduSpeechWriterCloud.proofreadGo env jp attempt (rem + 1) = .error m
    ∧ UrduSpeechWriterCloud.transcribeGo env attempt (rem + 1) = .error m := by
  intro env jp m attempt rem h
  refine ⟨?_, ?_, ?_, ?_, ?_⟩
  · simp only [UrduSpeechWriter.translateGo, h]
  · simp only [UrduSpeechWriter.proofreadGo, h]
  · simp only [UrduSpeechWriterCloud.translateGo, h]
  · simp only [UrduSpeechWriterCloud.proofreadGo, h]
  · simp only [UrduSpeechWriterCloud.transcribeGo, h]

/-- C3 witness. -/
theorem C3_witness :
    UrduSpeechWriter.translateGo (fun _ => .exc (pyS "boom")) 0 2
      = ((UrduSpeechWriter.translateGo (fun _ => .exc (pyS "boom")) 1 1).1,
         .warn (pyS "API Error: " ++ pyS "boom") :: .sleep 2 ::
           (UrduSpeechWriter.translateGo (fun _ => .exc (pyS "boom")) 1 1).2)
    ∧ UrduSpeechWriterCloud.translateGo (fun _ => .exc (pyS "boom")) 0 2
      = .error (pyS "boom") := by
  have h := C3_theorem (fun _ => .exc (pyS "boom")) (fun _ => none)
    (pyS "boom") 0 1 rfl
  exact ⟨h.1, h.2.2.1⟩

/-! ## Claim C4 -/

/-- C4: in both variants, once `original_urdu` is nonempty no event other
than "Clear" changes it (in particular a further transcription/audio event
leaves it unchanged), and "Clear" resets all three session fields to empty. -/
theorem C4_theorem : ∀ (s : DraftState),
    (∀ e : UrduSpeechWriter.LEvent, s.original_urdu ≠ [] →
      e ≠ UrduSpeechWriter.LEvent.clear →
      (UrduSpeechWriter.step e s).original_urdu = s.original_urdu)
    ∧ UrduSpeechWriter.step UrduSpeechWriter.LEvent.clear s = ⟨[], [], []⟩
    ∧ (∀ e : UrduSpeechWriterCloud.CEvent, s.original_urdu ≠ [] →
      e ≠ UrduSpeechWriterCloud.CEvent.clear →
      (UrduSpeechWriterCloud.step e s).original_urdu = s.original_urdu)
    ∧ UrduSpeechWriterCloud.step UrduSpeechWriterCloud.CEvent.clear s
        = ⟨[], [], []⟩ := by
  intro s
  refine ⟨?_, rfl, ?_, rfl⟩
  · intro e h hne
    cases e with
    | audio aenv recog tenv =>
        simp only [UrduSpeechWriter.step]
        cases hna : normalizeAudio aenv with
        | error m => rfl
        | ok a =>
            dsimp only
            cases hr : recog a with
            | error m => rfl
            | ok src =>
                dsimp only
                rw [if_neg h]
    | edit t => rfl
    | replaceWord o n =>
        simp only [UrduSpeechWriter.step, UrduSpeechWriter.replaceStep]
        split <;> rfl
    | useCorrected c => rfl
    | save => rfl
    | clear => exact absurd rfl hne
  · intro e h hne
    cases e with
    | audio tenvT tenvU =>
        simp only [UrduSpeechWriterCloud.step]
        cases htr : UrduSpeechWriterCloud.transcribe_audio_openrouter tenvT 2 with
        | error m => rfl
        | ok r =>
            dsimp only
            cases hp : (pyS "❌").isPrefixOf r.1 with
            | true => simp [hp]
            | false => simp [hp, h]
    | edit t => rfl
    | replaceWord o n =>
        simp only [UrduSpeechWriterCloud.step, UrduSpeechWriterCloud.replaceStep]
        split <;> rfl
    | proofreadClick penv jp =>
        simp only [UrduSpeechWriterCloud.step]
        cases UrduSpeechWriterCloud.proofread_urdu penv jp 2 with
        | error m => rfl
        | ok r =>
            obtain ⟨⟨oc, ch⟩, tr⟩ := r
            cases oc with
            | none => rfl
            | some c =>
                simp only []
                split <;> rfl
    | save => rfl
    | clear => exact absurd rfl hne

/-- C4 witness. -/
theorem C4_witness :
    (UrduSpeechWriter.step (.edit (pyS "y")) ⟨pyS "x", pyS "a", pyS "b"⟩).original_urdu
      = (⟨pyS "x", pyS "a", pyS "b"⟩ : DraftState).original_urdu
    ∧ UrduSpeechWriter.step UrduSpeechWriter.LEvent.clear
        ⟨pyS "x", pyS "a", pyS "b"⟩ = ⟨[], [], []⟩
    ∧ (UrduSpeechWriterCloud.step (.edit (pyS "y"))
        ⟨pyS "x", pyS "a", pyS "b"⟩).original_urdu
      = (⟨pyS "x", pyS "a", pyS "b"⟩ : DraftState).original_urdu := by
  have h := C4_theorem ⟨pyS "x", pyS "a", pyS "b"⟩
  refine ⟨h.1 (.edit (pyS "y")) (by decide) ?_, h.2.1,
    h.2.2.1 (.edit (pyS "y")) (by decide) ?_⟩
  · intro hc; cases hc
  · intro hc; cases hc

/-! ## Claim C8 -/

/-- C8 counterexample: in the cloud variant a replace request with an empty
old word leaves the text unchanged but signals no validation warning at all
(there is no `else` branch in its form handler), so the claim that a
warning is signalled fails on the cloud variant. -/
theorem C8_counterexample :
    UrduSpeechWriterCloud.replaceStep ⟨pyS "u", pyS "a b", pyS "s"⟩ (pyS "") (pyS "x")
      = (⟨pyS "u", pyS "a b", pyS "s"⟩, false) := by
  rfl

/-- C8 (amended): when either word is empty after trimming, the replace
operation leaves the draft unchanged in both variants; the local variant
signals the validation warning ("Both fields must be filled."), while the
cloud variant is a silent no-op. -/
theorem C8_theorem : ∀ (s : DraftState) (o n : PyStr),
    pyStrip o = [] ∨ pyStrip n = [] →
    UrduSpeechWriter.replaceStep s o n = (s, true)
    ∧ UrduSpeechWriterCloud.replaceStep s o n = (s, false) := by
  intro s o n h
  constructor
  · simp only [UrduSpeechWriter.replaceStep]
    rw [if_pos h]
  · simp only [UrduSpeechWriterCloud.replaceStep]
    have hne : ¬(pyStrip o ≠ [] ∧ pyStrip n ≠ []) := by
      rcases h with h | h <;> simp [h]
    rw [if_neg hne]

/-- C8 witness. -/
theorem C8_witness :
    UrduSpeechWriter.replaceStep ⟨pyS "u", pyS "a b", pyS "s"⟩ (pyS " ") (pyS "x")
      = (⟨pyS "u", pyS "a b", pyS "s"⟩, true)
    ∧ UrduSpeechWriterCloud.replaceStep ⟨pyS "u", pyS "a b", pyS "s"⟩
        (pyS " ") (pyS "x")
      = (⟨pyS "u", pyS "a b", pyS "s"⟩, false) :=
  C8_theorem ⟨pyS "u", pyS "a b", pyS "s"⟩ (pyS " ") (pyS "x") (Or.inl (by decide))

/-! ## Claim C9 -/

/-- C9: the audio normalizer of the local variant tries WAV first (a WAV
success is returned whatever the WebM decoder would do), tries WebM only
when WAV raised, fails with a decode error carrying the underlying cause
when both raise, and on such a failure the audio event aborts with the
session state untouched (no partial result). -/
theorem C9_theorem : ∀ (aenv : AudioEnv) (a : Nat) (cw ce m : PyStr)
    (s : DraftState) (recog : Nat → Except PyStr PyStr) (tenv : Nat → NetOutcome),
    (aenv.wav = .ok a → normalizeAudio aenv = .ok a)
    ∧ (aenv.wav = .error cw → aenv.webm = .ok a → normalizeAudio aenv = .ok a)
    ∧ (aenv.wav = .error cw → aenv.webm = .error ce →
        normalizeAudio aenv = .error (pyS "❌ Could not decode audio: " ++ ce))
    ∧ (normalizeAudio aenv = .error m →
        UrduSpeechWriter.step (.audio aenv recog tenv) s = s) := by
  intro aenv a cw ce m s recog tenv
  refine ⟨?_, ?_, ?_, ?_⟩
  · intro hw; simp [normalizeAudio, hw]
  · intro hw hb; simp [normalizeAudio, hw, hb]
  · intro hw hb; simp [normalizeAudio, hw, hb]
  · intro hn; simp [UrduSpeechWriter.step, hn]

/-- C9 witness. -/
theorem C9_witness :
    normalizeAudio ⟨.error (pyS "w"), .error (pyS "b")⟩
      = .error (pyS "❌ Could not decode audio: " ++ pyS "b")
    ∧ UrduSpeechWriter.step
        (.audio ⟨.error (pyS "w"), .error (pyS "b")⟩
          (fun _ => .ok (pyS "t")) (fun _ => .timeout))
        ⟨pyS "o", pyS "e", pyS "l"⟩
      = ⟨pyS "o", pyS "e", pyS "l"⟩ := by
  have h := C9_theorem ⟨.error (pyS "w"), .error (pyS "b")⟩ 0 (pyS "w") (pyS "b")
    (pyS "❌ Could not decode audio: " ++ pyS "b") ⟨pyS "o", pyS "e", pyS "l"⟩
    (fun _ => .ok (pyS "t")) (fun _ => .timeout)
  exact ⟨h.2.2.1 rfl rfl, h.2.2.2 (h.2.2.1 rfl rfl)⟩

/-! ## Claim C10 -/

/-- C10 counterexample: an attempt whose extracted content is empty is not
retried by the local translator — the empty string is returned immediately
as a success instead of the network-failure sentinel; and a 200 response
lacking `"choices"` crashes the cloud translator (uncaught `KeyError`)
rather than silently proceeding to the next attempt. -/
theorem C10_counterexample :
    UrduSpeechWriter.openrouter_translate_to_urdu
        (fun _ => .ok ⟨200, .content []⟩) 2 = (([] : PyStr), ([] : List Ev))
    ∧ ([] : PyStr) ≠ pyS "❌ Failed to get translation after retries."
    ∧ UrduSpeechWriterCloud.translate_to_urdu (fun _ => .ok ⟨200, .noChoices⟩) 2
      = .error (pyS "KeyError: 'choices'") := by
  exact ⟨rfl, by decide, rfl⟩

/-- C10 (amended): the silent no-warning no-delay retry on an unusable
response happens exactly here — local translator: parsed body lacking
`"choices"`; local proofreader: body lacking `"choices"` or empty extracted
content; cloud translator and proofreader: non-200 status.  (The local
functions never check the status code; empty content is returned as a
success by both translators; a 200 body lacking `"choices"` crashes the
cloud helpers.)  After the attempt budget, the same failure value as for a
network failure is returned. -/
theorem C10_theorem : ∀ (env : Nat → NetOutcome) (jp : PyStr → Option ProofResult)
    (resp : HttpResp) (st : Nat) (attempt rem : Nat),
    (env attempt = .ok ⟨st, .noChoices⟩ →
        UrduSpeechWriter.translateGo env attempt (rem + 1)
          = UrduSpeechWriter.translateGo env (attempt + 1) rem
      ∧ UrduSpeechWriter.proofreadGo env jp attempt (rem + 1)
          = UrduSpeechWriter.proofreadGo env jp (attempt + 1) rem)
    ∧ (env attempt = .ok ⟨st, .content []⟩ →
        UrduSpeechWriter.proofreadGo env jp attempt (rem + 1)
          = UrduSpeechWriter.proofreadGo env jp (attempt + 1) rem)
    ∧ (env attempt = .ok resp → resp.status ≠ 200 →
        UrduSpeechWriterCloud.translateGo env attempt (rem + 1)
          = UrduSpeechWriterCloud.translateGo env (attempt + 1) rem
      ∧ UrduSpeechWriterCloud.proofreadGo env jp attempt (rem + 1)
          = UrduSpeechWriterCloud.proofreadGo env jp (attempt + 1) rem)
    ∧ (UrduSpeechWriter.translateGo env attempt 0
        = (pyS "❌ Failed to get translation after retries.", [])
      ∧ UrduSpeechWriter.proofreadGo env jp attempt 0
        = ((none, some (pyS "❌ Failed to proofread after retries.")), [])
      ∧ UrduSpeechWriterCloud.translateGo env attempt 0
        = .ok (pyS "❌ Failed to translate.", [])
      ∧ UrduSpeechWriterCloud.proofreadGo env jp attempt 0
        = .ok ((none, []), [])) := by
  intro env jp resp st attempt rem
  refine ⟨?_, ?_, ?_, rfl, rfl, rfl, rfl⟩
  · intro h
    constructor
    · simp only [UrduSpeechWriter.translateGo, h]
    · simp only [UrduSpeechWriter.proofreadGo, h]
  · intro h
    simp only [UrduSpeechWriter.proofreadGo, h]
    simp
  · intro h hst
    constructor
    · simp only [UrduSpeechWriterCloud.translateGo, h]
      rw [if_neg hst]
    · simp only [UrduSpeechWriterCloud.proofreadGo, h]
      rw [if_neg hst]

/-- C10 witness. -/
theorem C10_witness :
    (UrduSpeechWriter.translateGo (fun _ => .ok ⟨500, .noChoices⟩) 0 2
      = UrduSpeechWriter.translateGo (fun _ => .ok ⟨500, .noChoices⟩) 1 1)
    ∧ (UrduSpeechWriter.proofreadGo (fun _ => .ok ⟨200, .content []⟩)
        (fun _ => none) 0 2
      = UrduSpeechWriter.proofreadGo (fun _ => .ok ⟨200, .content []⟩)
        (fun _ => none) 1 1)
    ∧ (UrduSpeechWriterCloud.translateGo (fun _ => .ok ⟨500, .noChoices⟩) 0 2
      = UrduSpeechWriterCloud.translateGo (fun _ => .ok ⟨500, .noChoices⟩) 1 1) := by
  refine ⟨?_, ?_, ?_⟩
  · exact ((C10_theorem (fun _ => .ok ⟨500, .noChoices⟩) (fun _ => none)
      ⟨500, .noChoices⟩ 500 0 1).1 rfl).1
  · exact (C10_theorem (fun _ => .ok ⟨200, .content []⟩) (fun _ => none)
      ⟨200, .content []⟩ 200 0 1).2.1 rfl
  · exact ((C10_theorem (fun _ => .ok ⟨500, .noChoices⟩) (fun _ => none)
      ⟨500, .noChoices⟩ 500 0 1).2.2.1 rfl (by decide)).1

end UrduSpec

namespace UrduSpec.Difflib

open UrduSpec

/-!
Embedding of the parts of CPython's `difflib` that `diff_text` exercises:
`ndiff = Differ(None, IS_CHARACTER_JUNK).compare`, over `SequenceMatcher`.

Similarity ratios are exact rationals here (`2*M/T`), where CPython uses
IEEE doubles; the two can disagree only when a ratio and a cutoff are
within one double rounding step of each other, and every branch of the
program is modelled for either outcome, so the theorems below do not
depend on that choice.

Two Nat-safety notes against the Python source: `j2len.get(j-1, 0)` reads
the dictionary at -1 when `j = 0` (always the default 0), modelled by an
explicit `j = 0` test; and `i-k+1` is written `i + 1 - k` (equal for every
reachable `k ≤ i+1`).
-/

variable {α : Type} [DecidableEq α]

/-- Helper for `positionsOf`: positions of `x` in `b`, offset by `s`. -/
def positionsOfFrom (x : α) : List α → Nat → List Nat
  | [], _ => []
  | y :: ys, s =>
      if y = x then s :: positionsOfFrom x ys (s + 1)
      else positionsOfFrom x ys (s + 1)

/-- The `b2j` entry of `x` before purging: the indices at which `x` appears
in `b`, in increasing order. -/
def positionsOf (x : α) (b : List α) : List Nat := positionsOfFrom x b 0

/-- The autojunk rule of `SequenceMatcher.__chain_b` (both call sites leave
`autojunk=True`): with `n = len(b) ≥ 200`, non-junk elements occurring more
than `n // 100 + 1` times are purged from `b2j`. -/
def isPopular (isjunk : α → Bool) (b : List α) (x : α) : Bool :=
  !isjunk x && decide (200 ≤ b.length) && decide (b.length / 100 + 1 < b.count x)

/-- `b2j.get(x, [])` after the junk and popular purges. -/
def b2jGet (isjunk : α → Bool) (b : List α) (x : α) : List Nat :=
  if isjunk x || isPopular isjunk b x then [] else positionsOf x b

/-- `avail.get`-style lookup with a default, for `quick_ratio`'s dict. -/
def availGet (avail : List (α × Int)) (x : α) (dflt : Int) : Int :=
  match avail.find? (fun p => p.1 = x) with
  | some p => p.2
  | none => dflt

/-- `j2len.get(j, 0)` on the association-list model of the dict. -/
def alGet (l : List (Nat × Nat)) (j : Nat) : Nat :=
  match l.find? (fun p => p.1 = j) with
  | some p => p.2
  | none => 0

/-- Inner loop of `find_longest_match` over `b2j[a[i]]` for one row `i`:
skips `j < blo`, breaks at `j ≥ bhi` (the index lists are increasing),
records `newj2len[j] = j2len.get(j-1, 0) + 1` and updates the best block on
a strictly larger `k`. -/
def flmInner (blo bhi i : Nat) (j2len : List (Nat × Nat)) :
    List Nat → List (Nat × Nat) → Nat × Nat × Nat → List (Nat × Nat) × (Nat × Nat × Nat)
  | [], new, best => (new, best)
  | j :: js, new, best =>
      if j < blo then flmInner blo bhi i j2len js new best
      else if bhi ≤ j then (new, best)
      else
        let k := (if j = 0 then 0 else alGet j2len (j - 1)) + 1
        let best := if best.2.2 < k then (i + 1 - k, j + 1 - k, k) else best
        flmInner blo bhi i j2len js ((j, k) :: new) best

/-- Outer loop of `find_longest_match` over the rows `i ∈ [alo, ahi)`;
each row rebuilds `j2len` from scratch.  A row index outside `a` (never
reached under the caller's bounds) contributes nothing. -/
def flmRows (b2j : α → List Nat) (a : List α) (blo bhi : Nat) :
    List Nat → List (Nat × Nat) → Nat × Nat × Nat → Nat × Nat × Nat
  | [], _, best => best
  | i :: is, j2len, best =>
      match a.get? i with
      | none => flmRows b2j a blo bhi is [] best
      | some ai =>
          let r := flmInner blo bhi i j2len (b2j ai) [] best
          flmRows b2j a blo bhi is r.1 r.2

/-- One backward extension loop of `find_longest_match`: while the elements
before the block are equal and have the junk status `pred` asks for, grow
the block leftwards.  Structural recursion on `besti` (each iteration
decrements it). -/
def extendPrev (a b : List α) (pred : α → Bool) (alo blo : Nat) :
    Nat → Nat → Nat → Nat × Nat × Nat
  | 0, bestj, bestsize => (0, bestj, bestsize)
  | besti + 1, bestj, bestsize =>
      if alo < besti + 1 ∧ blo < bestj then
        match a.get? besti, b.get? (bestj - 1) with
        | some x, some y =>
            if pred y ∧ x = y then
              extendPrev a b pred alo blo besti (bestj - 1) (bestsize + 1)
            else (besti + 1, bestj, bestsize)
        | _, _ => (besti + 1, bestj, bestsize)
      else (besti + 1, bestj, bestsize)

/-- One forward extension loop of `find_longest_match`: while the elements
after the block are equal and have the junk status `pred` asks for, grow
`bestsize`.  `fuel` only bounds the iteration count (every iteration needs
`besti + bestsize < ahi`, so `ahi` iterations always suffice); the 0 case
is unreachable from `find_longest_match`. -/
def extendNext (a b : List α) (pred : α → Bool) (ahi bhi besti bestj : Nat) :
    Nat → Nat → Nat
  | 0, bestsize => bestsize
  | fuel + 1, bestsize =>
      if besti + bestsize < ahi ∧ bestj + bestsize < bhi then
        match a.get? (besti + bestsize), b.get? (bestj + bestsize) with
        | some x, some y =>
            if pred y ∧ x = y then
              extendNext a b pred ahi bhi besti bestj fuel (bestsize + 1)
            else bestsize
        | _, _ => bestsize
      else bestsize

/-- `SequenceMatcher.find_longest_match(alo, ahi, blo, bhi)`: the chain
search, then the four extension loops (non-junk backward/forward, then
junk backward/forward; `isbjunk` on an element of `b` is just `isjunk`). -/
def find_longest_match (isjunk : α → Bool) (a b : List α)
    (alo ahi blo bhi : Nat) : Nat × Nat × Nat :=
  let best0 := flmRows (b2jGet isjunk b) a blo bhi
    (List.range' alo (ahi - alo)) [] (alo, blo, 0)
  let e1 := extendPrev a b (fun y => !isjunk y) alo blo best0.1 best0.2.1 best0.2.2
  let s2 := extendNext a b (fun y => !isjunk y) ahi bhi e1.1 e1.2.1 ahi e1.2.2
  let e3 := extendPrev a b (fun y => isjunk y) alo blo e1.1 e1.2.1 s2
  let s4 := extendNext a b (fun y => isjunk y) ahi bhi e3.1 e3.2.1 ahi e3.2.2
  (e3.1, e3.2.1, s4)

/-- The recursion of `get_matching_blocks` in in-order form: the source
keeps a LIFO queue of rectangles and sorts the collected blocks at the end,
which yields exactly this recursion's left-to-right output (every block
found in the left sub-rectangle precedes `(i,j,k)`, which precedes every
block of the right one).  The guard records the contract documented for
`find_longest_match` — `alo ≤ i ≤ i+k ≤ ahi`, `blo ≤ j ≤ j+k ≤ bhi` and
`a[i:i+k] == b[j:j+k]`; a violation (impossible for the real
`find_longest_match`) would end the recursion like `k = 0` does.  `fuel`
only bounds the recursion depth: every split strictly shrinks
`(ahi-alo)+(bhi-blo)`, so the initial `len(a)+len(b)+1` always suffices
and the 0 case is unreachable. -/
def matchingBlocksGo (isjunk : α → Bool) (a b : List α) :
    Nat → Nat → Nat → Nat → Nat → List (Nat × Nat × Nat)
  | 0, _, _, _, _ => []
  | fuel + 1, alo, ahi, blo, bhi =>
      match find_longest_match isjunk a b alo ahi blo bhi with
      | (i, j, k) =>
          if k ≠ 0 ∧ alo ≤ i ∧ blo ≤ j ∧ i + k ≤ ahi ∧ j + k ≤ bhi ∧
              pySlice a i (i + k) = pySlice b j (j + k) then
            (if alo < i ∧ blo < j then
               matchingBlocksGo isjunk a b fuel alo i blo j
             else []) ++
            (i, j, k) ::
            (if i + k < ahi ∧ j + k < bhi then
               matchingBlocksGo isjunk a b fuel (i + k) ahi (j + k) bhi
             else [])
          else []

/-- The collapsing loop of `get_matching_blocks`: adjacent blocks merge,
and the running block is emitted when nonempty (the initial `(0,0,0)`
accumulator is the dummy that is never emitted). -/
def collapseGo : Nat × Nat × Nat → List (Nat × Nat × Nat) → List (Nat × Nat × Nat)
  | (i1, j1, k1), [] => if k1 ≠ 0 then [(i1, j1, k1)] else []
  | (i1, j1, k1), (i2, j2, k2) :: rest =>
      if i1 + k1 = i2 ∧ j1 + k1 = j2 then collapseGo (i1, j1, k1 + k2) rest
      else if k1 ≠ 0 then (i1, j1, k1) :: collapseGo (i2, j2, k2) rest
      else collapseGo (i2, j2, k2) rest

/-- `SequenceMatcher.get_matching_blocks()`: recursion, collapse, and the
terminating sentinel `(len(a), len(b), 0)`. -/
def get_matching_blocks (isjunk : α → Bool) (a b : List α) :
    List (Nat × Nat × Nat) :=
  collapseGo (0, 0, 0)
    (matchingBlocksGo isjunk a b (a.length + b.length + 1) 0 a.length 0 b.length)
    ++ [(a.length, b.length, 0)]

/-- The four opcode tags of `SequenceMatcher.get_opcodes()`. -/
inductive DTag where
  | replace
  | delete
  | insert
  | equal
deriving DecidableEq

/-- The loop of `get_opcodes()` over the matching blocks, carrying the
current position `(i, j)`. -/
def getOpcodesGo : Nat → Nat → List (Nat × Nat × Nat) →
    List (DTag × Nat × Nat × Nat × Nat)
  | _, _, [] => []
  | i, j, (ai, bj, size) :: rest =>
      (if i < ai ∧ j < bj then [(.replace, i, ai, j, bj)]
       else if i < ai then [(.delete, i, ai, j, bj)]
       else if j < bj then [(.insert, i, ai, j, bj)]
       else []) ++
      (if size ≠ 0 then [(.equal, ai, ai + size, bj, bj + size)] else []) ++
      getOpcodesGo (ai + size) (bj + size) rest

/-- `SequenceMatcher.get_opcodes()`. -/
def get_opcodes (isjunk : α → Bool) (a b : List α) :
    List (DTag × Nat × Nat × Nat × Nat) :=
  getOpcodesGo 0 0 (get_matching_blocks isjunk a b)

/-- `_calculate_ratio` (the exact rational `2*M/T`, built with `mkRat` so
that it evaluates by kernel reduction). -/
def calculate_ratio (ms length : Nat) : ℚ :=
  if length ≠ 0 then mkRat (2 * ms) length else 1

/-- `SequenceMatcher.ratio()`: twice the total size of the matching blocks
over the total length. -/
def ratio (isjunk : α → Bool) (a b : List α) : ℚ :=
  calculate_ratio
    ((get_matching_blocks isjunk a b).foldl (fun acc t => acc + t.2.2) 0)
    (a.length + b.length)

/-- The counting loop of `quick_ratio()`: `avail[x]` starts at
`fullbcount.get(x, 0) = b.count x` and each occurrence in `a` decrements
it, counting a match while it is positive. -/
def quickRatioGo (b : List α) : List (α × Int) → Nat → List α → Nat
  | _, ms, [] => ms
  | avail, ms, x :: xs =>
      let numb : Int := availGet avail x (b.count x)
      quickRatioGo b ((x, numb - 1) :: avail)
        (if 0 < numb then ms + 1 else ms) xs

/-- `SequenceMatcher.quick_ratio()` (junk plays no part in it). -/
def quick_ratio (a b : List α) : ℚ :=
  calculate_ratio (quickRatioGo b [] 0 a) (a.length + b.length)

/-- `SequenceMatcher.real_quick_ratio()`. -/
def real_quick_ratio (a b : List α) : ℚ :=
  calculate_ratio (min a.length b.length) (a.length + b.length)

end UrduSpec.Difflib

namespace UrduSpec.Difflib

open UrduSpec

/-- `IS_CHARACTER_JUNK`: blanks and tabs (the `charjunk` of `ndiff`). -/
def charjunk (c : Char) : Bool := c = ' ' || c = '\t'

/-- The `linejunk` of `ndiff` is `None`: no line is junk. -/
def nolinejunk (s : PyStr) : Bool := false

/-- `Differ._dump(tag, x, lo, hi)`: `'%s %s' % (tag, line)` for each line of
the slice. -/
def dump (tag : Char) (x : List PyStr) (lo hi : Nat) : List PyStr :=
  (pySlice x lo hi).map (fun s => tag :: ' ' :: s)

/-- `Differ._plain_replace`: dump the shorter block first. -/
def plainReplace (a : List PyStr) (alo ahi : Nat) (b : List PyStr)
    (blo bhi : Nat) : List PyStr :=
  if bhi - blo < ahi - alo then dump '+' b blo bhi ++ dump '-' a alo ahi
  else dump '-' a alo ahi ++ dump '+' b blo bhi

/-- State of `_fancy_replace`'s search for the best non-identical pair:
the best ratio so far, its pair, and the first identical pair. -/
structure FSearch where
  bestRatio : ℚ
  best : Option (Nat × Nat)
  eq : Option (Nat × Nat)
deriving DecidableEq

/-- Inner loop of `_fancy_replace`'s search, over `i ∈ [alo, ahi)` for a
fixed `j`: an identical pair is remembered (first one only) and skipped;
otherwise the three ratio gates must all beat the best ratio strictly.
A row index outside `a` (never reached under the caller's bounds)
contributes nothing. -/
def fancyScanI (a : List PyStr) (bj : PyStr) (j : Nat) :
    List Nat → FSearch → FSearch
  | [], st => st
  | i :: is, st =>
      match a.get? i with
      | none => fancyScanI a bj j is st
      | some ai =>
          if ai = bj then
            fancyScanI a bj j is
              { st with eq := if st.eq.isNone then some (i, j) else st.eq }
          else
            if st.bestRatio < real_quick_ratio ai bj ∧
               st.bestRatio < quick_ratio ai bj ∧
               st.bestRatio < ratio charjunk ai bj then
              fancyScanI a bj j is ⟨ratio charjunk ai bj, some (i, j), st.eq⟩
            else fancyScanI a bj j is st

/-- Outer loop of `_fancy_replace`'s search, over `j ∈ [blo, bhi)`. -/
def fancyScan (a b : List PyStr) (alo ahi : Nat) :
    List Nat → FSearch → FSearch
  | [], st => st
  | j :: js, st =>
      match b.get? j with
      | none => fancyScan a b alo ahi js st
      | some bj =>
          fancyScan a b alo ahi js
            (fancyScanI a bj j (List.range' alo (ahi - alo)) st)

/-- The intraline `atags`/`btags` built by `_fancy_replace` from the
character-level opcodes of the synch pair. -/
def intralineTags (aelt belt : PyStr) : PyStr × PyStr :=
  (get_opcodes charjunk aelt belt).foldl
    (fun (p : PyStr × PyStr) op =>
      match op with
      | (.replace, ai1, ai2, bj1, bj2) =>
          (p.1 ++ List.replicate (ai2 - ai1) '^',
           p.2 ++ List.replicate (bj2 - bj1) '^')
      | (.delete, ai1, ai2, _, _) =>
          (p.1 ++ List.replicate (ai2 - ai1) '-', p.2)
      | (.insert, _, _, bj1, bj2) =>
          (p.1, p.2 ++ List.replicate (bj2 - bj1) '+')
      | (.equal, ai1, ai2, bj1, bj2) =>
          (p.1 ++ List.replicate (ai2 - ai1) ' ',
           p.2 ++ List.replicate (bj2 - bj1) ' '))
    ([], [])

/-- `_keep_original_ws(line, tags)`: a blank tag over an original
whitespace character keeps that character. -/
def keepOriginalWs (line tags : PyStr) : PyStr :=
  (line.zip tags).map (fun p => if p.2 = ' ' ∧ pyIsSpace p.1 then p.1 else p.2)

/-- The optional `"? "` guide line of `_qformat`: emitted only when the
processed tag string is nonempty, with a trailing newline. -/
def hintLine (t : PyStr) : List PyStr :=
  if t ≠ [] then [pyS "? " ++ t ++ ['\n']] else []

/-- `Differ._qformat`: the `- aline`, optional `? atags`, `+ bline`,
optional `? btags` quad. -/
def qformat (aline bline atags btags : PyStr) : List PyStr :=
  (pyS "- " ++ aline) ::
    (hintLine (pyRstrip (keepOriginalWs aline atags)) ++
      ((pyS "+ " ++ bline) ::
        hintLine (pyRstrip (keepOriginalWs bline btags))))

/-- `Differ._fancy_replace` with `_fancy_helper` inlined at its two call
sites.  The guards record what the search loop guarantees about the indices
it returns (they lie in the searched rectangle, and the remembered identical
pair is identical); the unreachable `else` branches degrade to
`_plain_replace`.  `fuel` only bounds the recursion depth: both recursive
calls strictly shrink `(ahi-alo)+(bhi-blo)`, so the initial
`(ahi-alo)+(bhi-blo)+1` always suffices and the 0 case is unreachable. -/
def fancyReplace (a b : List PyStr) : Nat → Nat → Nat → Nat → Nat → List PyStr
  | 0, alo, ahi, blo, bhi => plainReplace a alo ahi b blo bhi
  | fuel + 1, alo, ahi, blo, bhi =>
      let st := fancyScan a b alo ahi (List.range' blo (bhi - blo))
        ⟨mkRat 74 100, none, none⟩
      if st.bestRatio < mkRat 3 4 then
        match st.eq with
        | none => plainReplace a alo ahi b blo bhi
        | some e =>
            if alo ≤ e.1 ∧ e.1 < ahi ∧ blo ≤ e.2 ∧ e.2 < bhi ∧
                a.get? e.1 = b.get? e.2 then
              (if alo < e.1 then
                 (if blo < e.2 then fancyReplace a b fuel alo e.1 blo e.2
                  else dump '-' a alo e.1)
               else if blo < e.2 then dump '+' b blo e.2 else []) ++
              (' ' :: ' ' :: a.getD e.1 []) ::
              (if e.1 + 1 < ahi then
                 (if e.2 + 1 < bhi then
                    fancyReplace a b fuel (e.1 + 1) ahi (e.2 + 1) bhi
                  else dump '-' a (e.1 + 1) ahi)
               else if e.2 + 1 < bhi then dump '+' b (e.2 + 1) bhi else [])
            else plainReplace a alo ahi b blo bhi
      else
        match st.best with
        | some p =>
            if alo ≤ p.1 ∧ p.1 < ahi ∧ blo ≤ p.2 ∧ p.2 < bhi then
              let aelt := a.getD p.1 []
              let belt := b.getD p.2 []
              let tg := intralineTags aelt belt
              (if alo < p.1 then
                 (if blo < p.2 then fancyReplace a b fuel alo p.1 blo p.2
                  else dump '-' a alo p.1)
               else if blo < p.2 then dump '+' b blo p.2 else []) ++
              qformat aelt belt tg.1 tg.2 ++
              (if p.1 + 1 < ahi then
                 (if p.2 + 1 < bhi then
                    fancyReplace a b fuel (p.1 + 1) ahi (p.2 + 1) bhi
                  else dump '-' a (p.1 + 1) ahi)
               else if p.2 + 1 < bhi then dump '+' b (p.2 + 1) bhi else [])
            else plainReplace a alo ahi b blo bhi
        | none => plainReplace a alo ahi b blo bhi

/-- One opcode of `Differ.compare`'s dispatch. -/
def compareOp (a b : List PyStr) (op : DTag × Nat × Nat × Nat × Nat) :
    List PyStr :=
  match op with
  | (.replace, alo, ahi, blo, bhi) =>
      fancyReplace a b ((ahi - alo) + (bhi - blo) + 1) alo ahi blo bhi
  | (.delete, alo, ahi, _, _) => dump '-' a alo ahi
  | (.insert, _, _, blo, bhi) => dump '+' b blo bhi
  | (.equal, alo, ahi, _, _) => dump ' ' a alo ahi

/-- `Differ(None, IS_CHARACTER_JUNK).compare(a, b)`. -/
def compare (a b : List PyStr) : List PyStr :=
  (get_opcodes nolinejunk a b).flatMap (compareOp a b)

/-- `difflib.ndiff(a, b)`. -/
def ndiff (a b : List PyStr) : List PyStr := compare a b

end UrduSpec.Difflib

namespace UrduSpec.UrduSpeechWriter

open UrduSpec

/-- The rendering loop of the local `diff_text`: insertions in strong
emphasis, deletions in strikethrough, `"? "` alignment-hint lines dropped,
anything else rendered as `token[2:]`. -/
def diffTokens : List PyStr → List PyStr
  | [] => []
  | tok :: rest =>
      if (pyS "+ ").isPrefixOf tok then
        (pyS "**" ++ tok.drop 2 ++ pyS "**") :: diffTokens rest
      else if (pyS "- ").isPrefixOf tok then
        (pyS "~~" ++ tok.drop 2 ++ pyS "~~") :: diffTokens rest
      else if (pyS "? ").isPrefixOf tok then diffTokens rest
      else tok.drop 2 :: diffTokens rest

/-- `diff_text(old, new)` (local variant): `ndiff` over the
whitespace-split tokens, rendered and joined by single spaces. -/
def diff_text (oldT newT : PyStr) : PyStr :=
  List.intercalate (pyS " ") (diffTokens (Difflib.ndiff (pySplit oldT) (pySplit newT)))

end UrduSpec.UrduSpeechWriter

namespace UrduSpec.UrduSpeechWriterCloud

open UrduSpec

/-- The rendering loop of the cloud `diff_text`: like the local one but
with no `"? "` branch — a line that is neither an insertion, a deletion
nor an equal line (`"  "`) is appended verbatim, hint lines included. -/
def diffTokens : List PyStr → List PyStr
  | [] => []
  | tok :: rest =>
      if (pyS "+ ").isPrefixOf tok then
        (pyS "**" ++ tok.drop 2 ++ pyS "**") :: diffTokens rest
      else if (pyS "- ").isPrefixOf tok then
        (pyS "~~" ++ tok.drop 2 ++ pyS "~~") :: diffTokens rest
      else
        (if (pyS "  ").isPrefixOf tok then tok.drop 2 else tok) :: diffTokens rest

/-- `diff_text(old, new)` (cloud variant). -/
def diff_text (oldT newT : PyStr) : PyStr :=
  List.intercalate (pyS " ") (diffTokens (Difflib.ndiff (pySplit oldT) (pySplit newT)))

end UrduSpec.UrduSpeechWriterCloud

namespace UrduSpec.Difflib

open UrduSpec

/-! ## Restore: what a reader keeping one tag class recovers from a delta -/

/-- The delta lines restoring the second sequence: insertions and equal
lines, with the two-character tag removed (difflib's documented
`restore(delta, 2)`). -/
def keepPlusEqual (delta : List PyStr) : List PyStr :=
  (delta.filter
    (fun l => (pyS "+ ").isPrefixOf l || (pyS "  ").isPrefixOf l)).map
    (List.drop 2)

/-- The delta lines restoring the first sequence: deletions and equal
lines, untagged (`restore(delta, 1)`). -/
def keepMinusEqual (delta : List PyStr) : List PyStr :=
  (delta.filter
    (fun l => (pyS "- ").isPrefixOf l || (pyS "  ").isPrefixOf l)).map
    (List.drop 2)

theorem keepPlusEqual_nil : keepPlusEqual [] = [] := rfl

theorem keepPlusEqual_cons_plus (t : PyStr) (rest : List PyStr) :
    keepPlusEqual (('+' :: ' ' :: t) :: rest) = t :: keepPlusEqual rest := by
  simp [keepPlusEqual, pyS, List.isPrefixOf]

theorem keepPlusEqual_cons_space (t : PyStr) (rest : List PyStr) :
    keepPlusEqual ((' ' :: ' ' :: t) :: rest) = t :: keepPlusEqual rest := by
  simp [keepPlusEqual, pyS, List.isPrefixOf]

theorem keepPlusEqual_cons_minus (t : PyStr) (rest : List PyStr) :
    keepPlusEqual (('-' :: ' ' :: t) :: rest) = keepPlusEqual rest := by
  simp [keepPlusEqual, pyS, List.isPrefixOf]

theorem keepPlusEqual_cons_hint (t : PyStr) (rest : List PyStr) :
    keepPlusEqual (('?' :: ' ' :: t) :: rest) = keepPlusEqual rest := by
  simp [keepPlusEqual, pyS, List.isPrefixOf]

theorem keepPlusEqual_append (xs ys : List PyStr) :
    keepPlusEqual (xs ++ ys) = keepPlusEqual xs ++ keepPlusEqual ys := by
  simp [keepPlusEqual]

theorem keepMinusEqual_nil : keepMinusEqual [] = [] := rfl

theorem keepMinusEqual_cons_plus (t : PyStr) (rest : List PyStr) :
    keepMinusEqual (('+' :: ' ' :: t) :: rest) = keepMinusEqual rest := by
  simp [keepMinusEqual, pyS, List.isPrefixOf]

theorem keepMinusEqual_cons_space (t : PyStr) (rest : List PyStr) :
    keepMinusEqual ((' ' :: ' ' :: t) :: rest) = t :: keepMinusEqual rest := by
  simp [keepMinusEqual, pyS, List.isPrefixOf]

theorem keepMinusEqual_cons_minus (t : PyStr) (rest : List PyStr) :
    keepMinusEqual (('-' :: ' ' :: t) :: rest) = t :: keepMinusEqual rest := by
  simp [keepMinusEqual, pyS, List.isPrefixOf]

theorem keepMinusEqual_cons_hint (t : PyStr) (rest : List PyStr) :
    keepMinusEqual (('?' :: ' ' :: t) :: rest) = keepMinusEqual rest := by
  simp [keepMinusEqual, pyS, List.isPrefixOf]

theorem keepMinusEqual_append (xs ys : List PyStr) :
    keepMinusEqual (xs ++ ys) = keepMinusEqual xs ++ keepMinusEqual ys := by
  simp [keepMinusEqual]

/-! ## Slice lemmas -/

theorem pySlice_full {α : Type} (l : List α) : pySlice l 0 l.length = l := by
  simp [pySlice]

theorem pySlice_of_le {α : Type} (l : List α) {lo hi : Nat} (h : hi ≤ lo) :
    pySlice l lo hi = [] := by
  apply List.drop_eq_nil_of_le
  calc (l.take hi).length ≤ hi := by simp
    _ ≤ lo := h

theorem dropTake_append {α : Type} (L : List α) (lo mid : Nat) (h1 : lo ≤ mid) :
    (L.take mid).drop lo ++ L.drop mid = L.drop lo := by
  conv_rhs => rw [← List.take_append_drop mid L]
  rw [List.drop_append_eq_append_drop]
  rcases Nat.le_total mid L.length with hm | hm
  · have hlen : (L.take mid).length = mid := by simp [hm]
    rw [hlen, Nat.sub_eq_zero_of_le h1, List.drop_zero]
  · have hnil : L.drop mid = [] := List.drop_eq_nil_of_le hm
    rw [hnil]
    simp

theorem pySlice_append {α : Type} (l : List α) {lo mid hi : Nat}
    (h1 : lo ≤ mid) (h2 : mid ≤ hi) :
    pySlice l lo mid ++ pySlice l mid hi = pySlice l lo hi := by
  unfold pySlice
  have ht : l.take mid = (l.take hi).take mid := by
    rw [List.take_take]
    congr 1
    omega
  rw [ht]
  exact dropTake_append (l.take hi) lo mid h1

theorem pySlice_singleton {α : Type} (l : List α) (i : Nat) (x : α)
    (h : l.get? i = some x) : pySlice l i (i + 1) = [x] := by
  unfold pySlice
  rw [List.get?_eq_getElem?] at h
  rw [List.take_succ, h]
  have hi : i < l.length := by
    by_contra hc
    rw [List.getElem?_eq_none (by omega)] at h
    exact Option.noConfusion h
  rw [List.drop_append_eq_append_drop]
  have h1 : (l.take i).length = i := by
    simp
    omega
  rw [List.drop_eq_nil_of_le (by rw [h1]), h1, Nat.sub_self]
  rfl

theorem getD_eq_of_get? {α : Type} {l : List α} {i : Nat} {x d : α}
    (h : l.get? i = some x) : l.getD i d = x := by
  rw [List.get?_eq_getElem?] at h
  simp [List.getD, h]

/-! ## Restore for the dumped line classes -/

theorem keepPlusEqual_dump_plus (x : List PyStr) (lo hi : Nat) :
    keepPlusEqual (dump '+' x lo hi) = pySlice x lo hi := by
  unfold dump
  generalize pySlice x lo hi = xs
  induction xs with
  | nil => rfl
  | cons t rest ih => rw [List.map_cons, keepPlusEqual_cons_plus, ih]

theorem keepPlusEqual_dump_minus (x : List PyStr) (lo hi : Nat) :
    keepPlusEqual (dump '-' x lo hi) = [] := by
  unfold dump
  generalize pySlice x lo hi = xs
  induction xs with
  | nil => rfl
  | cons t rest ih => rw [List.map_cons, keepPlusEqual_cons_minus, ih]

theorem keepPlusEqual_dump_space (x : List PyStr) (lo hi : Nat) :
    keepPlusEqual (dump ' ' x lo hi) = pySlice x lo hi := by
  unfold dump
  generalize pySlice x lo hi = xs
  induction xs with
  | nil => rfl
  | cons t rest ih => rw [List.map_cons, keepPlusEqual_cons_space, ih]

theorem keepMinusEqual_dump_plus (x : List PyStr) (lo hi : Nat) :
    keepMinusEqual (dump '+' x lo hi) = [] := by
  unfold dump
  generalize pySlice x lo hi = xs
  induction xs with
  | nil => rfl
  | cons t rest ih => rw [List.map_cons, keepMinusEqual_cons_plus, ih]

theorem keepMinusEqual_dump_minus (x : List PyStr) (lo hi : Nat) :
    keepMinusEqual (dump '-' x lo hi) = pySlice x lo hi := by
  unfold dump
  generalize pySlice x lo hi = xs
  induction xs with
  | nil => rfl
  | cons t rest ih => rw [List.map_cons, keepMinusEqual_cons_minus, ih]

theorem keepMinusEqual_dump_space (x : List PyStr) (lo hi : Nat) :
    keepMinusEqual (dump ' ' x lo hi) = pySlice x lo hi := by
  unfold dump
  generalize pySlice x lo hi = xs
  induction xs with
  | nil => rfl
  | cons t rest ih => rw [List.map_cons, keepMinusEqual_cons_space, ih]

theorem keepPlusEqual_plainReplace (a : List PyStr) (alo ahi : Nat)
    (b : List PyStr) (blo bhi : Nat) :
    keepPlusEqual (plainReplace a alo ahi b blo bhi) = pySlice b blo bhi := by
  unfold plainReplace
  split <;>
    simp [keepPlusEqual_append, keepPlusEqual_dump_plus, keepPlusEqual_dump_minus]

theorem keepMinusEqual_plainReplace (a : List PyStr) (alo ahi : Nat)
    (b : List PyStr) (blo bhi : Nat) :
    keepMinusEqual (plainReplace a alo ahi b blo bhi) = pySlice a alo ahi := by
  unfold plainReplace
  split <;>
    simp [keepMinusEqual_append, keepMinusEqual_dump_plus, keepMinusEqual_dump_minus]

theorem keepPlusEqual_hintLine (t : PyStr) : keepPlusEqual (hintLine t) = [] := by
  unfold hintLine
  split
  · simp [keepPlusEqual, pyS, List.isPrefixOf]
  · rfl

theorem keepMinusEqual_hintLine (t : PyStr) : keepMinusEqual (hintLine t) = [] := by
  unfold hintLine
  split
  · simp [keepMinusEqual, pyS, List.isPrefixOf]
  · rfl

theorem keepPlusEqual_qformat (al bl at1 bt1 : PyStr) :
    keepPlusEqual (qformat al bl at1 bt1) = [bl] := by
  unfold qformat
  have h1 : pyS "- " ++ al = '-' :: ' ' :: al := rfl
  have h2 : pyS "+ " ++ bl = '+' :: ' ' :: bl := rfl
  rw [h1, h2, keepPlusEqual_cons_minus, keepPlusEqual_append,
    keepPlusEqual_hintLine, keepPlusEqual_cons_plus, keepPlusEqual_hintLine]
  rfl

theorem keepMinusEqual_qformat (al bl at1 bt1 : PyStr) :
    keepMinusEqual (qformat al bl at1 bt1) = [al] := by
  unfold qformat
  have h1 : pyS "- " ++ al = '-' :: ' ' :: al := rfl
  have h2 : pyS "+ " ++ bl = '+' :: ' ' :: bl := rfl
  rw [h1, h2, keepMinusEqual_cons_minus, keepMinusEqual_append,
    keepMinusEqual_hintLine, keepMinusEqual_cons_plus, keepMinusEqual_hintLine]
  rfl

end UrduSpec.Difflib

namespace UrduSpec.Difflib

open UrduSpec

/-- Restore property of the inlined `_fancy_helper` expression, given the
property for `fancyReplace` at the same fuel. -/
theorem helperKeep (a b : List PyStr) (fuel : Nat)
    (ih : ∀ alo ahi blo bhi, ahi ≤ a.length → bhi ≤ b.length →
      keepPlusEqual (fancyReplace a b fuel alo ahi blo bhi) = pySlice b blo bhi ∧
      keepMinusEqual (fancyReplace a b fuel alo ahi blo bhi) = pySlice a alo ahi)
    (alo ahi blo bhi : Nat) (ha : ahi ≤ a.length) (hb : bhi ≤ b.length)
    (hao : alo ≤ ahi) (hbo : blo ≤ bhi) :
    keepPlusEqual
      (if alo < ahi then
        (if blo < bhi then fancyReplace a b fuel alo ahi blo bhi
         else dump '-' a alo ahi)
       else if blo < bhi then dump '+' b blo bhi else [])
      = pySlice b blo bhi
    ∧ keepMinusEqual
      (if alo < ahi then
        (if blo < bhi then fancyReplace a b fuel alo ahi blo bhi
         else dump '-' a alo ahi)
       else if blo < bhi then dump '+' b blo bhi else [])
      = pySlice a alo ahi := by
  by_cases h1 : alo < ahi
  · rw [if_pos h1]
    by_cases h2 : blo < bhi
    · rw [if_pos h2]
      exact ih alo ahi blo bhi ha hb
    · rw [if_neg h2, keepPlusEqual_dump_minus, keepMinusEqual_dump_minus,
        pySlice_of_le b (by omega)]
      exact ⟨rfl, rfl⟩
  · rw [if_neg h1]
    by_cases h2 : blo < bhi
    · rw [if_pos h2, keepPlusEqual_dump_plus, keepMinusEqual_dump_plus,
        pySlice_of_le a (by omega)]
      exact ⟨rfl, rfl⟩
    · rw [if_neg h2, keepPlusEqual_nil, keepMinusEqual_nil,
        pySlice_of_le a (by omega), pySlice_of_le b (by omega)]
      exact ⟨rfl, rfl⟩

/-- The restore property of `_fancy_replace`: whatever branch it takes,
the `+`/space lines spell `b[blo:bhi]` and the `-`/space lines spell
`a[alo:ahi]`. -/
theorem fancyReplace_keep (a b : List PyStr) :
    ∀ (fuel alo ahi blo bhi : Nat), ahi ≤ a.length → bhi ≤ b.length →
    keepPlusEqual (fancyReplace a b fuel alo ahi blo bhi) = pySlice b blo bhi
    ∧ keepMinusEqual (fancyReplace a b fuel alo ahi blo bhi) = pySlice a alo ahi := by
  intro fuel
  induction fuel with
  | zero =>
      intro alo ahi blo bhi _ _
      exact ⟨keepPlusEqual_plainReplace a alo ahi b blo bhi,
        keepMinusEqual_plainReplace a alo ahi b blo bhi⟩
  | succ fuel ih =>
      intro alo ahi blo bhi ha hb
      simp only [fancyReplace]
      generalize fancyScan a b alo ahi (List.range' blo (bhi - blo))
        ⟨mkRat 74 100, none, none⟩ = st
      by_cases hr : st.bestRatio < mkRat 3 4
      · rw [if_pos hr]
        cases heq : st.eq with
        | none =>
            exact ⟨keepPlusEqual_plainReplace a alo ahi b blo bhi,
              keepMinusEqual_plainReplace a alo ahi b blo bhi⟩
        | some e =>
            dsimp only
            by_cases hg : alo ≤ e.1 ∧ e.1 < ahi ∧ blo ≤ e.2 ∧ e.2 < bhi ∧
                a.get? e.1 = b.get? e.2
            · rw [if_pos hg]
              obtain ⟨hg1, hg2, hg3, hg4, hg5⟩ := hg
              have hxb : e.2 < b.length := by omega
              have hx : b.get? e.2 = some (b.get ⟨e.2, hxb⟩) := List.get?_eq_get hxb
              have hax : a.get? e.1 = some (b.get ⟨e.2, hxb⟩) := by rw [hg5, hx]
              have hgd : a.getD e.1 [] = b.get ⟨e.2, hxb⟩ := getD_eq_of_get? hax
              have hpre := helperKeep a b fuel ih alo e.1 blo e.2
                (by omega) (by omega) hg1 hg3
              have hpost := helperKeep a b fuel ih (e.1 + 1) ahi (e.2 + 1) bhi
                ha hb (by omega) (by omega)
              constructor
              · rw [keepPlusEqual_append, hpre.1, hgd, keepPlusEqual_cons_space,
                  hpost.1]
                rw [show (b.get ⟨e.2, hxb⟩ :: pySlice b (e.2 + 1) bhi)
                    = pySlice b e.2 (e.2 + 1) ++ pySlice b (e.2 + 1) bhi by
                  rw [pySlice_singleton b e.2 _ hx]; rfl]
                rw [pySlice_append b (by omega) (by omega),
                  pySlice_append b (by omega) (by omega)]
              · rw [keepMinusEqual_append, hpre.2, hgd, keepMinusEqual_cons_space,
                  hpost.2]
                rw [show (b.get ⟨e.2, hxb⟩ :: pySlice a (e.1 + 1) ahi)
                    = pySlice a e.1 (e.1 + 1) ++ pySlice a (e.1 + 1) ahi by
                  rw [pySlice_singleton a e.1 _ hax]; rfl]
                rw [pySlice_append a (by omega) (by omega),
                  pySlice_append a (by omega) (by omega)]
            · rw [if_neg hg]
              exact ⟨keepPlusEqual_plainReplace a alo ahi b blo bhi,
                keepMinusEqual_plainReplace a alo ahi b blo bhi⟩
      · rw [if_neg hr]
        cases hbe : st.best with
        | none =>
            exact ⟨keepPlusEqual_plainReplace a alo ahi b blo bhi,
              keepMinusEqual_plainReplace a alo ahi b blo bhi⟩
        | some p =>
            dsimp only
            by_cases hg : alo ≤ p.1 ∧ p.1 < ahi ∧ blo ≤ p.2 ∧ p.2 < bhi
            · rw [if_pos hg]
              obtain ⟨hg1, hg2, hg3, hg4⟩ := hg
              have hxa : p.1 < a.length := by omega
              have hxb : p.2 < b.length := by omega
              have hga : a.get? p.1 = some (a.get ⟨p.1, hxa⟩) := List.get?_eq_get hxa
              have hgb : b.get? p.2 = some (b.get ⟨p.2, hxb⟩) := List.get?_eq_get hxb
              have hgda : a.getD p.1 [] = a.get ⟨p.1, hxa⟩ := getD_eq_of_get? hga
              have hgdb : b.getD p.2 [] = b.get ⟨p.2, hxb⟩ := getD_eq_of_get? hgb
              have hpre := helperKeep a b fuel ih alo p.1 blo p.2
                (by omega) (by omega) hg1 hg3
              have hpost := helperKeep a b fuel ih (p.1 + 1) ahi (p.2 + 1) bhi
                ha hb (by omega) (by omega)
              constructor
              · rw [keepPlusEqual_append, keepPlusEqual_append, hpre.1,
                  keepPlusEqual_qformat, hpost.1, hgdb]
                rw [show ([b.get ⟨p.2, hxb⟩] : List PyStr)
                    = pySlice b p.2 (p.2 + 1) from (pySlice_singleton b p.2 _ hgb).symm]
                rw [pySlice_append b (by omega) (by omega),
                  pySlice_append b (by omega) (by omega)]
              · rw [keepMinusEqual_append, keepMinusEqual_append, hpre.2,
                  keepMinusEqual_qformat, hpost.2, hgda]
                rw [show ([a.get ⟨p.1, hxa⟩] : List PyStr)
                    = pySlice a p.1 (p.1 + 1) from (pySlice_singleton a p.1 _ hga).symm]
                rw [pySlice_append a (by omega) (by omega),
                  pySlice_append a (by omega) (by omega)]
            · rw [if_neg hg]
              exact ⟨keepPlusEqual_plainReplace a alo ahi b blo bhi,
                keepMinusEqual_plainReplace a alo ahi b blo bhi⟩

end UrduSpec.Difflib

namespace UrduSpec.Difflib

open UrduSpec

/-! ## The chain structure of the matching blocks -/

/-- End position on the `a` side after consuming a block list. -/
def endA : Nat → List (Nat × Nat × Nat) → Nat
  | i, [] => i
  | _, (ai, _, k) :: rest => endA (ai + k) rest

/-- End position on the `b` side after consuming a block list. -/
def endB : Nat → List (Nat × Nat × Nat) → Nat
  | j, [] => j
  | _, (_, bj, k) :: rest => endB (bj + k) rest

/-- The blocks advance monotonically from `(i, j)`, stay within
`[0, M) × [0, N)`, and each matches equal slices of `a` and `b` —
the documented shape of `get_matching_blocks()`' output. -/
def ChainedIn {α : Type} (a b : List α) (M N : Nat) :
    Nat → Nat → List (Nat × Nat × Nat) → Prop
  | _, _, [] => True
  | i, j, (ai, bj, k) :: rest =>
      i ≤ ai ∧ j ≤ bj ∧ ai + k ≤ M ∧ bj + k ≤ N ∧
      pySlice a ai (ai + k) = pySlice b bj (bj + k) ∧
      ChainedIn a b M N (ai + k) (bj + k) rest

theorem chainedIn_nil {α : Type} (a b : List α) (M N i j : Nat) :
    ChainedIn a b M N i j [] := trivial

theorem chainedIn_mono {α : Type} {a b : List α} {M N M' N' : Nat} :
    ∀ {bs : List (Nat × Nat × Nat)} {i j : Nat},
    ChainedIn a b M N i j bs → M ≤ M' → N ≤ N' → ChainedIn a b M' N' i j bs := by
  intro bs
  induction bs with
  | nil => intro i j _ _ _; trivial
  | cons blk rest ih =>
      obtain ⟨ai, bj, k⟩ := blk
      intro i j h hM hN
      obtain ⟨h1, h2, h3, h4, h5, h6⟩ := h
      exact ⟨h1, h2, by omega, by omega, h5, ih h6 hM hN⟩

theorem chainedIn_le_start {α : Type} {a b : List α} {M N : Nat}
    {bs : List (Nat × Nat × Nat)} {i j i' j' : Nat}
    (h : ChainedIn a b M N i j bs) (hi : i' ≤ i) (hj : j' ≤ j) :
    ChainedIn a b M N i' j' bs := by
  cases bs with
  | nil => trivial
  | cons blk rest =>
      obtain ⟨ai, bj, k⟩ := blk
      obtain ⟨h1, h2, h3, h4, h5, h6⟩ := h
      exact ⟨by omega, by omega, h3, h4, h5, h6⟩

theorem endA_le {α : Type} {a b : List α} {M N : Nat} :
    ∀ {bs : List (Nat × Nat × Nat)} {i j : Nat},
    ChainedIn a b M N i j bs → i ≤ M → endA i bs ≤ M := by
  intro bs
  induction bs with
  | nil => intro i j _ h; exact h
  | cons blk rest ih =>
      obtain ⟨ai, bj, k⟩ := blk
      intro i j h hi
      obtain ⟨h1, h2, h3, h4, h5, h6⟩ := h
      exact ih h6 h3

theorem endB_le {α : Type} {a b : List α} {M N : Nat} :
    ∀ {bs : List (Nat × Nat × Nat)} {i j : Nat},
    ChainedIn a b M N i j bs → j ≤ N → endB j bs ≤ N := by
  intro bs
  induction bs with
  | nil => intro i j _ h; exact h
  | cons blk rest ih =>
      obtain ⟨ai, bj, k⟩ := blk
      intro i j h hj
      obtain ⟨h1, h2, h3, h4, h5, h6⟩ := h
      exact ih h6 h4

theorem endA_ge {α : Type} {a b : List α} {M N : Nat} :
    ∀ {bs : List (Nat × Nat × Nat)} {i j : Nat},
    ChainedIn a b M N i j bs → i ≤ endA i bs := by
  intro bs
  induction bs with
  | nil => intro i j _; exact Nat.le_refl i
  | cons blk rest ih =>
      obtain ⟨ai, bj, k⟩ := blk
      intro i j h
      obtain ⟨h1, h2, h3, h4, h5, h6⟩ := h
      calc i ≤ ai + k := by omega
        _ ≤ endA (ai + k) rest := ih h6

theorem endB_ge {α : Type} {a b : List α} {M N : Nat} :
    ∀ {bs : List (Nat × Nat × Nat)} {i j : Nat},
    ChainedIn a b M N i j bs → j ≤ endB j bs := by
  intro bs
  induction bs with
  | nil => intro i j _; exact Nat.le_refl j
  | cons blk rest ih =>
      obtain ⟨ai, bj, k⟩ := blk
      intro i j h
      obtain ⟨h1, h2, h3, h4, h5, h6⟩ := h
      calc j ≤ bj + k := by omega
        _ ≤ endB (bj + k) rest := ih h6

theorem endA_append (xs ys : List (Nat × Nat × Nat)) :
    ∀ i, endA i (xs ++ ys) = endA (endA i xs) ys := by
  induction xs with
  | nil => intro i; rfl
  | cons blk rest ih =>
      obtain ⟨ai, bj, k⟩ := blk
      intro i
      exact ih (ai + k)

theorem endB_append (xs ys : List (Nat × Nat × Nat)) :
    ∀ j, endB j (xs ++ ys) = endB (endB j xs) ys := by
  induction xs with
  | nil => intro j; rfl
  | cons blk rest ih =>
      obtain ⟨ai, bj, k⟩ := blk
      intro j
      exact ih (bj + k)

theorem chainedIn_append {α : Type} {a b : List α} {M N : Nat} :
    ∀ {xs ys : List (Nat × Nat × Nat)} {i j : Nat},
    ChainedIn a b M N i j xs →
    ChainedIn a b M N (endA i xs) (endB j xs) ys →
    ChainedIn a b M N i j (xs ++ ys) := by
  intro xs
  induction xs with
  | nil => intro ys i j _ h2; exact h2
  | cons blk rest ih =>
      obtain ⟨ai, bj, k⟩ := blk
      intro ys i j h1 h2
      obtain ⟨g1, g2, g3, g4, g5, g6⟩ := h1
      exact ⟨g1, g2, g3, g4, g5, ih g6 h2⟩

/-- The in-order block recursion produces a chain inside its rectangle. -/
theorem matchingBlocksGo_chained {α : Type} [DecidableEq α]
    (isjunk : α → Bool) (a b : List α) :
    ∀ (fuel alo ahi blo bhi : Nat),
    ChainedIn a b ahi bhi alo blo (matchingBlocksGo isjunk a b fuel alo ahi blo bhi) := by
  intro fuel
  induction fuel with
  | zero => intro alo ahi blo bhi; trivial
  | succ fuel ih =>
      intro alo ahi blo bhi
      simp only [matchingBlocksGo]
      rcases hm : find_longest_match isjunk a b alo ahi blo bhi with ⟨i, j, k⟩
      dsimp only
      by_cases hg : k ≠ 0 ∧ alo ≤ i ∧ blo ≤ j ∧ i + k ≤ ahi ∧ j + k ≤ bhi ∧
          pySlice a i (i + k) = pySlice b j (j + k)
      · rw [if_pos hg]
        obtain ⟨hg0, hg1, hg2, hg3, hg4, hg5⟩ := hg
        have hleft : ∀ left, left = (if alo < i ∧ blo < j then
              matchingBlocksGo isjunk a b fuel alo i blo j else []) →
            ChainedIn a b ahi bhi alo blo left ∧ endA alo left ≤ i ∧ endB blo left ≤ j := by
          intro left hdef
          by_cases hlr : alo < i ∧ blo < j
          · rw [hdef, if_pos hlr]
            have hc := ih alo i blo j
            refine ⟨chainedIn_mono hc (by omega) (by omega), ?_, ?_⟩
            · exact endA_le hc (by omega)
            · exact endB_le hc (by omega)
          · rw [hdef, if_neg hlr]
            exact ⟨trivial, hg1, hg2⟩
        obtain ⟨hcl, hel, her⟩ := hleft _ rfl
        apply chainedIn_append hcl
        refine ⟨hel, her, hg3, hg4, hg5, ?_⟩
        by_cases hrr : i + k < ahi ∧ j + k < bhi
        · rw [if_pos hrr]
          exact ih (i + k) ahi (j + k) bhi
        · rw [if_neg hrr]
          trivial
      · rw [if_neg hg]
        trivial

/-- Collapsing adjacent blocks preserves the chain (the accumulator is a
pending block whose slices already match). -/
theorem collapseGo_chained {α : Type} {a b : List α} {M N : Nat} :
    ∀ (bs : List (Nat × Nat × Nat)) (i1 j1 k1 pi1 pj1 : Nat),
    pi1 ≤ i1 → pj1 ≤ j1 → i1 + k1 ≤ M → j1 + k1 ≤ N →
    pySlice a i1 (i1 + k1) = pySlice b j1 (j1 + k1) →
    ChainedIn a b M N (i1 + k1) (j1 + k1) bs →
    ChainedIn a b M N pi1 pj1 (collapseGo (i1, j1, k1) bs) := by
  intro bs
  induction bs with
  | nil =>
      intro i1 j1 k1 pi1 pj1 h1 h2 h3 h4 h5 _
      simp only [collapseGo]
      split
      · exact ⟨h1, h2, h3, h4, h5, trivial⟩
      · trivial
  | cons blk rest ih =>
      obtain ⟨i2, j2, k2⟩ := blk
      intro i1 j1 k1 pi1 pj1 h1 h2 h3 h4 h5 hch
      obtain ⟨g1, g2, g3, g4, g5, g6⟩ := hch
      simp only [collapseGo]
      by_cases hadj : i1 + k1 = i2 ∧ j1 + k1 = j2
      · rw [if_pos hadj]
        obtain ⟨ha1, ha2⟩ := hadj
        have hmerge : pySlice a i1 (i1 + (k1 + k2)) = pySlice b j1 (j1 + (k1 + k2)) := by
          have hsa : pySlice a i1 (i1 + k1) ++ pySlice a (i1 + k1) (i1 + k1 + k2)
              = pySlice a i1 (i1 + (k1 + k2)) := by
            rw [pySlice_append a (by omega) (by omega)]
            congr 1
            omega
          have hsb : pySlice b j1 (j1 + k1) ++ pySlice b (j1 + k1) (j1 + k1 + k2)
              = pySlice b j1 (j1 + (k1 + k2)) := by
            rw [pySlice_append b (by omega) (by omega)]
            congr 1
            omega
          rw [← hsa, ← hsb, h5]
          congr 1
          rw [ha1, ha2]
          exact g5
        apply ih (i1) (j1) (k1 + k2) pi1 pj1 h1 h2 (by omega) (by omega) hmerge
        have : i1 + (k1 + k2) = i2 + k2 := by omega
        rw [this]
        have : j1 + (k1 + k2) = j2 + k2 := by omega
        rw [this]
        exact g6
      · rw [if_neg hadj]
        by_cases hk : k1 ≠ 0
        · rw [if_pos hk]
          refine ⟨h1, h2, h3, h4, h5, ?_⟩
          exact ih i2 j2 k2 (i1 + k1) (j1 + k1) g1 g2 g3 g4 g5 g6
        · rw [if_neg hk]
          apply ih i2 j2 k2 pi1 pj1 (by omega) (by omega) g3 g4 g5 g6

/-- `get_matching_blocks()` yields a chain through `[0, len a] × [0, len b]`
ending exactly at `(len a, len b)`. -/
theorem get_matching_blocks_chained {α : Type} [DecidableEq α]
    (isjunk : α → Bool) (a b : List α) :
    ChainedIn a b a.length b.length 0 0 (get_matching_blocks isjunk a b)
    ∧ endA 0 (get_matching_blocks isjunk a b) = a.length
    ∧ endB 0 (get_matching_blocks isjunk a b) = b.length := by
  have hmb := matchingBlocksGo_chained isjunk a b (a.length + b.length + 1)
    0 a.length 0 b.length
  have hcol : ChainedIn a b a.length b.length 0 0
      (collapseGo (0, 0, 0) (matchingBlocksGo isjunk a b
        (a.length + b.length + 1) 0 a.length 0 b.length)) := by
    apply collapseGo_chained _ 0 0 0 0 0 (Nat.le_refl 0) (Nat.le_refl 0)
      (by omega) (by omega) (by simp [pySlice])
    simpa using hmb
  unfold get_matching_blocks
  refine ⟨?_, ?_, ?_⟩
  · apply chainedIn_append hcol
    refine ⟨endA_le hcol (by omega), endB_le hcol (by omega), by omega, by omega, ?_, trivial⟩
    rw [pySlice_of_le a (by omega), pySlice_of_le b (by omega)]
  · rw [endA_append]
    rfl
  · rw [endB_append]
    rfl

end UrduSpec.Difflib

namespace UrduSpec.Difflib

open UrduSpec

/-- Rendering the opcodes of a chained block list restores the two slices:
the `+`/space lines spell `b` between the current position and the chain's
end, and the `-`/space lines spell `a` likewise. -/
theorem opsKeep (a b : List PyStr) :
    ∀ (blocks : List (Nat × Nat × Nat)) (i j : Nat),
    ChainedIn a b a.length b.length i j blocks →
    keepPlusEqual ((getOpcodesGo i j blocks).flatMap (compareOp a b))
      = pySlice b j (endB j blocks)
    ∧ keepMinusEqual ((getOpcodesGo i j blocks).flatMap (compareOp a b))
      = pySlice a i (endA i blocks) := by
  intro blocks
  induction blocks with
  | nil =>
      intro i j _
      constructor
      · rw [show endB j [] = j from rfl, pySlice_of_le b (Nat.le_refl j)]
        rfl
      · rw [show endA i [] = i from rfl, pySlice_of_le a (Nat.le_refl i)]
        rfl
  | cons blk rest ih =>
      obtain ⟨ai, bj, size⟩ := blk
      intro i j hch
      obtain ⟨h1, h2, h3, h4, h5, h6⟩ := hch
      have hrec := ih (ai + size) (bj + size) h6
      have hEa := endA_ge h6
      have hEb := endB_ge h6
      simp only [getOpcodesGo, List.flatMap_append, keepPlusEqual_append,
        keepMinusEqual_append]
      have hgap : keepPlusEqual
            ((if i < ai ∧ j < bj then [(DTag.replace, i, ai, j, bj)]
              else if i < ai then [(DTag.delete, i, ai, j, bj)]
              else if j < bj then [(DTag.insert, i, ai, j, bj)]
              else []).flatMap (compareOp a b)) = pySlice b j bj
          ∧ keepMinusEqual
            ((if i < ai ∧ j < bj then [(DTag.replace, i, ai, j, bj)]
              else if i < ai then [(DTag.delete, i, ai, j, bj)]
              else if j < bj then [(DTag.insert, i, ai, j, bj)]
              else []).flatMap (compareOp a b)) = pySlice a i ai := by
        by_cases hc1 : i < ai ∧ j < bj
        · rw [if_pos hc1]
          have hf := fancyReplace_keep a b ((ai - i) + (bj - j) + 1) i ai j bj
            (by omega) (by omega)
          simpa [compareOp] using hf
        · rw [if_neg hc1]
          by_cases hc2 : i < ai
          · rw [if_pos hc2]
            have hjb : j = bj := by omega
            subst hjb
            constructor
            · simp [compareOp, keepPlusEqual_dump_minus, pySlice_of_le b (Nat.le_refl j)]
            · simp [compareOp, keepMinusEqual_dump_minus]
          · rw [if_neg hc2]
            have hia : i = ai := by omega
            subst hia
            by_cases hc3 : j < bj
            · rw [if_pos hc3]
              constructor
              · simp [compareOp, keepPlusEqual_dump_plus]
              · simp [compareOp, keepMinusEqual_dump_plus, pySlice_of_le a (Nat.le_refl i)]
            · rw [if_neg hc3]
              have hjb : j = bj := by omega
              subst hjb
              constructor
              · simp [keepPlusEqual_nil, pySlice_of_le b (Nat.le_refl j)]
              · simp [keepMinusEqual_nil, pySlice_of_le a (Nat.le_refl i)]
      have heq : keepPlusEqual
            ((if size ≠ 0 then [(DTag.equal, ai, ai + size, bj, bj + size)]
              else []).flatMap (compareOp a b)) = pySlice b bj (bj + size)
          ∧ keepMinusEqual
            ((if size ≠ 0 then [(DTag.equal, ai, ai + size, bj, bj + size)]
              else []).flatMap (compareOp a b)) = pySlice a ai (ai + size) := by
        by_cases hs : size ≠ 0
        · rw [if_pos hs]
          constructor
          · simp only [List.flatMap_cons, List.flatMap_nil, List.append_nil, compareOp]
            rw [keepPlusEqual_dump_space, h5]
          · simp only [List.flatMap_cons, List.flatMap_nil, List.append_nil, compareOp]
            rw [keepMinusEqual_dump_space]
        · rw [if_neg hs]
          have hz : size = 0 := by omega
          subst hz
          constructor
          · rw [pySlice_of_le b (show bj + 0 ≤ bj by omega)]
            rfl
          · rw [pySlice_of_le a (show ai + 0 ≤ ai by omega)]
            rfl
      constructor
      · rw [hgap.1, heq.1, hrec.1]
        rw [show endB j ((ai, bj, size) :: rest) = endB (bj + size) rest from rfl]
        have hA1 : pySlice b j bj ++ pySlice b bj (bj + size)
            = pySlice b j (bj + size) :=
          pySlice_append b h2 (by omega)
        have hA2 : pySlice b j (bj + size) ++ pySlice b (bj + size) (endB (bj + size) rest)
            = pySlice b j (endB (bj + size) rest) :=
          pySlice_append b (by omega) hEb
        rw [hA1, hA2]
      · rw [hgap.2, heq.2, hrec.2]
        rw [show endA i ((ai, bj, size) :: rest) = endA (ai + size) rest from rfl]
        have hA1 : pySlice a i ai ++ pySlice a ai (ai + size)
            = pySlice a i (ai + size) :=
          pySlice_append a h1 (by omega)
        have hA2 : pySlice a i (ai + size) ++ pySlice a (ai + size) (endA (ai + size) rest)
            = pySlice a i (endA (ai + size) rest) :=
          pySlice_append a (by omega) hEa
        rw [hA1, hA2]

/-- The documented restore property of an `ndiff` delta, second sequence:
keeping the insertion and equal lines and stripping the tags yields `b`. -/
theorem keepPlusEqual_ndiff (a b : List PyStr) :
    keepPlusEqual (ndiff a b) = b := by
  obtain ⟨hch, hA, hB⟩ := get_matching_blocks_chained nolinejunk a b
  have h := (opsKeep a b (get_matching_blocks nolinejunk a b) 0 0 hch).1
  unfold ndiff compare get_opcodes
  rw [h, hB, pySlice_full]

/-- The documented restore property of an `ndiff` delta, first sequence:
keeping the deletion and equal lines and stripping the tags yields `a`. -/
theorem keepMinusEqual_ndiff (a b : List PyStr) :
    keepMinusEqual (ndiff a b) = a := by
  obtain ⟨hch, hA, hB⟩ := get_matching_blocks_chained nolinejunk a b
  have h := (opsKeep a b (get_matching_blocks nolinejunk a b) 0 0 hch).2
  unfold ndiff compare get_opcodes
  rw [h, hA, pySlice_full]

end UrduSpec.Difflib

namespace UrduSpec

/-- The per-line rendering of the local `diff_text` loop: insertions in
strong emphasis, deletions in strikethrough, anything else untagged. -/
def markLocal (l : PyStr) : PyStr :=
  if (pyS "+ ").isPrefixOf l then pyS "**" ++ l.drop 2 ++ pyS "**"
  else if (pyS "- ").isPrefixOf l then pyS "~~" ++ l.drop 2 ++ pyS "~~"
  else l.drop 2

/-- The local rendering loop is: drop the alignment-hint lines, render
every other line according to its tag. -/
theorem diffTokens_eq_filter_map (delta : List PyStr) :
    UrduSpeechWriter.diffTokens delta
      = (delta.filter (fun l => !(pyS "? ").isPrefixOf l)).map markLocal := by
  induction delta with
  | nil => rfl
  | cons tok rest ih =>
      by_cases h1 : (pyS "+ ").isPrefixOf tok
      · obtain ⟨t, ht⟩ := List.isPrefixOf_iff_prefix.mp h1
        subst ht
        simp only [UrduSpeechWriter.diffTokens]
        simp [markLocal, pyS, List.isPrefixOf, ih]
      · by_cases h2 : (pyS "- ").isPrefixOf tok
        · obtain ⟨t, ht⟩ := List.isPrefixOf_iff_prefix.mp h2
          subst ht
          simp only [UrduSpeechWriter.diffTokens]
          simp [markLocal, pyS, List.isPrefixOf, ih]
        · by_cases h3 : (pyS "? ").isPrefixOf tok
          · obtain ⟨t, ht⟩ := List.isPrefixOf_iff_prefix.mp h3
            subst ht
            simp only [UrduSpeechWriter.diffTokens]
            simp [pyS, List.isPrefixOf, ih]
          · simp only [UrduSpeechWriter.diffTokens, if_neg h1, if_neg h2, if_neg h3]
            rw [List.filter_cons_of_pos
              (by cases hb : (pyS "? ").isPrefixOf tok
                  · simp
                  · exact absurd hb h3),
              List.map_cons, ih]
            congr 1
            simp [markLocal, h1, h2]

/-- Stripping the rendered markup and keeping the inserted and unchanged
elements: strikethrough elements are discarded, strong-emphasis elements
are unwrapped, anything else is kept as it stands. -/
def discardMarkupKeepNew (out : List PyStr) : List PyStr :=
  out.filterMap (fun s =>
    if (pyS "~~").isPrefixOf s && (pyS "~~").isSuffixOf s then none
    else if (pyS "**").isPrefixOf s && (pyS "**").isSuffixOf s then
      some ((s.drop 2).dropLast.dropLast)
    else some s)

/-! ## Claim C5 -/

/-- C5 counterexample: the cloud renderer passes the alignment-hint lines
of `ndiff("wxyd".split(), "wxye".split())` through verbatim, so discarding
markup and keeping inserted-plus-unchanged elements does not reconstruct
the tokens of the new text. -/
theorem C5_counterexample :
    discardMarkupKeepNew (UrduSpeechWriterCloud.diffTokens
        (Difflib.ndiff (pySplit (pyS "wxyd")) (pySplit (pyS "wxye"))))
      ≠ pySplit (pyS "wxye") := by
  decide

/-- C5 (amended): the delta computed inside `diff_text` reconstructs both
texts' tokenizations — its insertion-plus-equal lines spell exactly the
tokens of `new` in order and its deletion-plus-equal lines exactly the
tokens of `old` — and the local renderer maps that delta line by line
(hint lines dropped, every other line rendered with its tokens kept), so
the local variant's output reconstructs as claimed; the cloud variant can
emit hint lines verbatim, breaking exact reconstruction. -/
theorem C5_theorem : ∀ oldT newT : PyStr,
    Difflib.keepPlusEqual (Difflib.ndiff (pySplit oldT) (pySplit newT))
      = pySplit newT
    ∧ Difflib.keepMinusEqual (Difflib.ndiff (pySplit oldT) (pySplit newT))
      = pySplit oldT
    ∧ UrduSpeechWriter.diffTokens (Difflib.ndiff (pySplit oldT) (pySplit newT))
      = ((Difflib.ndiff (pySplit oldT) (pySplit newT)).filter
          (fun l => !(pyS "? ").isPrefixOf l)).map markLocal := by
  intro oldT newT
  exact ⟨Difflib.keepPlusEqual_ndiff _ _, Difflib.keepMinusEqual_ndiff _ _,
    diffTokens_eq_filter_map _⟩

/-! ## Claim C6, counterexample part -/

/-- C6 counterexample: `diff_text(x, x)` joins the tokens of `x` with
single spaces, so a doubled space inside `x` is not reproduced — the
rendering is not `x` unchanged. -/
theorem C6_counterexample :
    UrduSpeechWriter.diff_text (pyS "a  b") (pyS "a  b") = pyS "a b"
    ∧ UrduSpeechWriter.diff_text (pyS "a  b") (pyS "a  b") ≠ pyS "a  b" := by
  decide

/-! ## Claim C7, counterexample part -/

/-- C7 counterexample: on `old = "abcd"`, `new = "abce"` the diff library
emits alignment-hint lines, and the cloud renderer appends them verbatim;
the returned markup string contains them. -/
theorem C7_counterexample :
    UrduSpeechWriterCloud.diff_text (pyS "abcd") (pyS "abce")
      = pyS "~~abcd~~ ?    ^\n **abce** ?    ^\n"
    ∧ (UrduSpeechWriterCloud.diffTokens (Difflib.ndiff (pySplit (pyS "abcd"))
        (pySplit (pyS "abce")))).any (fun l => (pyS "? ").isPrefixOf l) = true := by
  decide

end UrduSpec

namespace UrduSpec.Difflib

open UrduSpec

/-- Shape of a delta line of `compare a b`: an equal line carrying an
element of `a`, an insertion carrying an element of `b`, a deletion
carrying an element of `a`, or an alignment-hint line. -/
def LineShape (a b : List PyStr) (l : PyStr) : Prop :=
  (∃ t, l = ' ' :: ' ' :: t ∧ t ∈ a) ∨ (∃ t, l = '+' :: ' ' :: t ∧ t ∈ b) ∨
  (∃ t, l = '-' :: ' ' :: t ∧ t ∈ a) ∨ (∃ t, l = '?' :: ' ' :: t)

theorem mem_pySlice {α : Type} {x : α} {l : List α} {lo hi : Nat}
    (h : x ∈ pySlice l lo hi) : x ∈ l :=
  ((((l.take hi).drop_sublist lo).trans (l.take_sublist hi)).subset) h

theorem shape_dump_space {a b : List PyStr} {l : PyStr} (x : List PyStr)
    (hx : ∀ t ∈ x, t ∈ a) (lo hi : Nat) (h : l ∈ dump ' ' x lo hi) :
    LineShape a b l := by
  obtain ⟨t, ht, rfl⟩ := List.mem_map.mp h
  exact Or.inl ⟨t, rfl, hx t (mem_pySlice ht)⟩

theorem shape_dump_plus {a b : List PyStr} {l : PyStr} (x : List PyStr)
    (hx : ∀ t ∈ x, t ∈ b) (lo hi : Nat) (h : l ∈ dump '+' x lo hi) :
    LineShape a b l := by
  obtain ⟨t, ht, rfl⟩ := List.mem_map.mp h
  exact Or.inr (Or.inl ⟨t, rfl, hx t (mem_pySlice ht)⟩)

theorem shape_dump_minus {a b : List PyStr} {l : PyStr} (x : List PyStr)
    (hx : ∀ t ∈ x, t ∈ a) (lo hi : Nat) (h : l ∈ dump '-' x lo hi) :
    LineShape a b l := by
  obtain ⟨t, ht, rfl⟩ := List.mem_map.mp h
  exact Or.inr (Or.inr (Or.inl ⟨t, rfl, hx t (mem_pySlice ht)⟩))

theorem shape_plainReplace {a b : List PyStr} {l : PyStr} {alo ahi blo bhi : Nat}
    (h : l ∈ plainReplace a alo ahi b blo bhi) : LineShape a b l := by
  unfold plainReplace at h
  split at h <;> rcases List.mem_append.mp h with h' | h'
  · exact shape_dump_plus b (fun t ht => ht) blo bhi h'
  · exact shape_dump_minus a (fun t ht => ht) alo ahi h'
  · exact shape_dump_minus a (fun t ht => ht) alo ahi h'
  · exact shape_dump_plus b (fun t ht => ht) blo bhi h'

theorem shape_hintLine {a b : List PyStr} {l : PyStr} {t : PyStr}
    (h : l ∈ hintLine t) : LineShape a b l := by
  unfold hintLine at h
  split at h
  · rcases List.mem_singleton.mp h with rfl
    exact Or.inr (Or.inr (Or.inr ⟨_, rfl⟩))
  · exact absurd h (List.not_mem_nil l)

theorem shape_qformat {a b : List PyStr} {l : PyStr} {al bl at1 bt1 : PyStr}
    (hal : al ∈ a) (hbl : bl ∈ b) (h : l ∈ qformat al bl at1 bt1) :
    LineShape a b l := by
  unfold qformat at h
  rcases List.mem_cons.mp h with rfl | h
  · exact Or.inr (Or.inr (Or.inl ⟨al, rfl, hal⟩))
  rcases List.mem_append.mp h with h | h
  · exact shape_hintLine h
  rcases List.mem_cons.mp h with rfl | h
  · exact Or.inr (Or.inl ⟨bl, rfl, hbl⟩)
  · exact shape_hintLine h

theorem getD_mem {l : List PyStr} {i : Nat} (h : i < l.length) :
    l.getD i [] ∈ l := by
  rw [getD_eq_of_get? (List.get?_eq_get h)]
  exact List.get_mem l i h

theorem shape_fancyReplace (a b : List PyStr) :
    ∀ (fuel alo ahi blo bhi : Nat), ahi ≤ a.length → bhi ≤ b.length →
    ∀ l ∈ fancyReplace a b fuel alo ahi blo bhi, LineShape a b l := by
  intro fuel
  induction fuel with
  | zero => intro alo ahi blo bhi _ _ l hl; exact shape_plainReplace hl
  | succ fuel ih =>
      intro alo ahi blo bhi ha hb l hl
      simp only [fancyReplace] at hl
      revert hl
      generalize fancyScan a b alo ahi (List.range' blo (bhi - blo))
        ⟨mkRat 74 100, none, none⟩ = st
      intro hl
      by_cases hr : st.bestRatio < mkRat 3 4
      · rw [if_pos hr] at hl
        cases heq : st.eq with
        | none => rw [heq] at hl; exact shape_plainReplace hl
        | some e =>
            rw [heq] at hl
            dsimp only at hl
            by_cases hg : alo ≤ e.1 ∧ e.1 < ahi ∧ blo ≤ e.2 ∧ e.2 < bhi ∧
                a.get? e.1 = b.get? e.2
            · rw [if_pos hg] at hl
              obtain ⟨hg1, hg2, hg3, hg4, hg5⟩ := hg
              rcases List.mem_append.mp hl with h' | h'
              · by_cases hc1 : alo < e.1
                · rw [if_pos hc1] at h'
                  by_cases hc2 : blo < e.2
                  · rw [if_pos hc2] at h'
                    exact ih alo e.1 blo e.2 (by omega) (by omega) l h'
                  · rw [if_neg hc2] at h'
                    exact shape_dump_minus a (fun t ht => ht) alo e.1 h'
                · rw [if_neg hc1] at h'
                  by_cases hc2 : blo < e.2
                  · rw [if_pos hc2] at h'
                    exact shape_dump_plus b (fun t ht => ht) blo e.2 h'
                  · rw [if_neg hc2] at h'
                    exact absurd h' (List.not_mem_nil l)
              rcases List.mem_cons.mp h' with rfl | h'
              · exact Or.inl ⟨a.getD e.1 [], rfl, getD_mem (by omega)⟩
              · by_cases hc1 : e.1 + 1 < ahi
                · rw [if_pos hc1] at h'
                  by_cases hc2 : e.2 + 1 < bhi
                  · rw [if_pos hc2] at h'
                    exact ih (e.1 + 1) ahi (e.2 + 1) bhi ha hb l h'
                  · rw [if_neg hc2] at h'
                    exact shape_dump_minus a (fun t ht => ht) (e.1 + 1) ahi h'
                · rw [if_neg hc1] at h'
                  by_cases hc2 : e.2 + 1 < bhi
                  · rw [if_pos hc2] at h'
                    exact shape_dump_plus b (fun t ht => ht) (e.2 + 1) bhi h'
                  · rw [if_neg hc2] at h'
                    exact absurd h' (List.not_mem_nil l)
            · rw [if_neg hg] at hl
              exact shape_plainReplace hl
      · rw [if_neg hr] at hl
        cases hbe : st.best with
        | none => rw [hbe] at hl; exact shape_plainReplace hl
        | some p =>
            rw [hbe] at hl
            dsimp only at hl
            by_cases hg : alo ≤ p.1 ∧ p.1 < ahi ∧ blo ≤ p.2 ∧ p.2 < bhi
            · rw [if_pos hg] at hl
              obtain ⟨hg1, hg2, hg3, hg4⟩ := hg
              rcases List.mem_append.mp hl with h' | h'
              · rcases List.mem_append.mp h' with h'' | h''
                · by_cases hc1 : alo < p.1
                  · rw [if_pos hc1] at h''
                    by_cases hc2 : blo < p.2
                    · rw [if_pos hc2] at h''
                      exact ih alo p.1 blo p.2 (by omega) (by omega) l h''
                    · rw [if_neg hc2] at h''
                      exact shape_dump_minus a (fun t ht => ht) alo p.1 h''
                  · rw [if_neg hc1] at h''
                    by_cases hc2 : blo < p.2
                    · rw [if_pos hc2] at h''
                      exact shape_dump_plus b (fun t ht => ht) blo p.2 h''
                    · rw [if_neg hc2] at h''
                      exact absurd h'' (List.not_mem_nil l)
                · exact shape_qformat (getD_mem (by omega)) (getD_mem (by omega)) h''
              · by_cases hc1 : p.1 + 1 < ahi
                · rw [if_pos hc1] at h'
                  by_cases hc2 : p.2 + 1 < bhi
                  · rw [if_pos hc2] at h'
                    exact ih (p.1 + 1) ahi (p.2 + 1) bhi ha hb l h'
                  · rw [if_neg hc2] at h'
                    exact shape_dump_minus a (fun t ht => ht) (p.1 + 1) ahi h'
                · rw [if_neg hc1] at h'
                  by_cases hc2 : p.2 + 1 < bhi
                  · rw [if_pos hc2] at h'
                    exact shape_dump_plus b (fun t ht => ht) (p.2 + 1) bhi h'
                  · rw [if_neg hc2] at h'
                    exact absurd h' (List.not_mem_nil l)
            · rw [if_neg hg] at hl
              exact shape_plainReplace hl

theorem shape_ops (a b : List PyStr) :
    ∀ (blocks : List (Nat × Nat × Nat)) (i j : Nat),
    ChainedIn a b a.length b.length i j blocks →
    ∀ l ∈ (getOpcodesGo i j blocks).flatMap (compareOp a b), LineShape a b l := by
  intro blocks
  induction blocks with
  | nil => intro i j _ l hl; exact absurd hl (List.not_mem_nil l)
  | cons blk rest ih =>
      obtain ⟨ai, bj, size⟩ := blk
      intro i j hch l hl
      obtain ⟨h1, h2, h3, h4, h5, h6⟩ := hch
      simp only [getOpcodesGo, List.flatMap_append] at hl
      rcases List.mem_append.mp hl with h' | h'
      · rcases List.mem_append.mp h' with h'' | h''
        · by_cases hc1 : i < ai ∧ j < bj
          · rw [if_pos hc1] at h''
            simp only [List.flatMap_cons, List.flatMap_nil, List.append_nil,
              compareOp] at h''
            exact shape_fancyReplace a b _ i ai j bj (by omega) (by omega) l h''
          · rw [if_neg hc1] at h''
            by_cases hc2 : i < ai
            · rw [if_pos hc2] at h''
              simp only [List.flatMap_cons, List.flatMap_nil, List.append_nil,
                compareOp] at h''
              exact shape_dump_minus a (fun t ht => ht) i ai h''
            · rw [if_neg hc2] at h''
              by_cases hc3 : j < bj
              · rw [if_pos hc3] at h''
                simp only [List.flatMap_cons, List.flatMap_nil, List.append_nil,
                  compareOp] at h''
                exact shape_dump_plus b (fun t ht => ht) j bj h''
              · rw [if_neg hc3] at h''
                simp at h''
        · by_cases hs : size ≠ 0
          · rw [if_pos hs] at h''
            simp only [List.flatMap_cons, List.flatMap_nil, List.append_nil,
              compareOp] at h''
            exact shape_dump_space a (fun t ht => ht) ai (ai + size) h''
          · rw [if_neg hs] at h''
            simp at h''
      · exact ih (ai + size) (bj + size) h6 l h'

/-- Every line of an `ndiff` delta is an equal line carrying a token of
`a`, an insertion carrying a token of `b`, a deletion carrying a token of
`a`, or a `"? "` alignment-hint line. -/
theorem shape_ndiff (a b : List PyStr) : ∀ l ∈ ndiff a b, LineShape a b l := by
  intro l hl
  obtain ⟨hch, _, _⟩ := get_matching_blocks_chained nolinejunk a b
  exact shape_ops a b (get_matching_blocks nolinejunk a b) 0 0 hch l hl

end UrduSpec.Difflib

namespace UrduSpec

/-- Tokens produced by `pySplitGo` contain no whitespace characters,
provided the accumulator has none. -/
theorem pySplitGo_no_space :
    ∀ (s cur : List Char), (∀ c ∈ cur, pyIsSpace c = false) →
    ∀ t ∈ pySplitGo s cur, ∀ c ∈ t, pyIsSpace c = false := by
  intro s
  induction s with
  | nil =>
      intro cur hcur t ht c hc
      simp only [pySplitGo] at ht
      split at ht
      · exact absurd ht (List.not_mem_nil t)
      · rcases List.mem_singleton.mp ht with rfl
        exact hcur c (List.mem_reverse.mp hc)
  | cons d ds ih =>
      intro cur hcur t ht c hc
      simp only [pySplitGo] at ht
      split at ht
      · split at ht
        · exact ih [] (by intro c hc'; exact absurd hc' (List.not_mem_nil c)) t ht c hc
        · rcases List.mem_cons.mp ht with rfl | ht'
          · exact hcur c (List.mem_reverse.mp hc)
          · exact ih [] (by intro c hc'; exact absurd hc' (List.not_mem_nil c)) t ht' c hc
      · rename_i hd
        refine ih (d :: cur) ?_ t ht c hc
        intro c' hc'
        rcases List.mem_cons.mp hc' with rfl | hc''
        · exact Bool.eq_false_iff.mpr hd
        · exact hcur c' hc''

/-- Tokens of `str.split()` contain no whitespace. -/
theorem pySplit_no_space (s : PyStr) :
    ∀ t ∈ pySplit s, ∀ c ∈ t, pyIsSpace c = false :=
  pySplitGo_no_space s [] (by intro c hc; exact absurd hc (List.not_mem_nil c))

/-! ## Claim C7, amended theorem -/

/-- C7 (amended): the local renderer drops the alignment-hint lines: no
element of its rendered token list begins with `"? "` (insertions and
deletions are wrapped in markup, equal lines carry whitespace-free tokens).
The cloud renderer, by contrast, appends hint lines verbatim. -/
theorem C7_theorem : ∀ (oldT newT l : PyStr),
    l ∈ UrduSpeechWriter.diffTokens (Difflib.ndiff (pySplit oldT) (pySplit newT)) →
    ¬ (pyS "? ").isPrefixOf l := by
  intro oldT newT l hl
  rw [diffTokens_eq_filter_map] at hl
  obtain ⟨l0, hl0, rfl⟩ := List.mem_map.mp hl
  have hmem := List.mem_of_mem_filter hl0
  have hkeep := List.of_mem_filter hl0
  rcases Difflib.shape_ndiff _ _ l0 hmem with ⟨t, rfl, ht⟩ | ⟨t, rfl, ht⟩ |
    ⟨t, rfl, ht⟩ | ⟨t, rfl⟩
  · have hml : markLocal (' ' :: ' ' :: t) = t := by
      simp [markLocal, pyS, List.isPrefixOf]
    rw [hml]
    intro hpre
    obtain ⟨u, hu⟩ := List.isPrefixOf_iff_prefix.mp hpre
    have hsp : (' ' : Char) ∈ t := by
      rw [← hu]
      simp [pyS]
    have := pySplit_no_space oldT t ht ' ' hsp
    simp [pyIsSpace] at this
  · have hml : markLocal ('+' :: ' ' :: t) = pyS "**" ++ t ++ pyS "**" := by
      simp [markLocal, pyS, List.isPrefixOf]
    rw [hml]
    intro hpre
    obtain ⟨u, hu⟩ := List.isPrefixOf_iff_prefix.mp hpre
    have : ('?' : Char) = '*' := by
      have := congrArg (fun l => l.get? 0) hu
      simpa [pyS] using this
    exact absurd this (by decide)
  · have hml : markLocal ('-' :: ' ' :: t) = pyS "~~" ++ t ++ pyS "~~" := by
      simp [markLocal, pyS, List.isPrefixOf]
    rw [hml]
    intro hpre
    obtain ⟨u, hu⟩ := List.isPrefixOf_iff_prefix.mp hpre
    have : ('?' : Char) = '~' := by
      have := congrArg (fun l => l.get? 0) hu
      simpa [pyS] using this
    exact absurd this (by decide)
  · exfalso
    have : (pyS "? ").isPrefixOf ('?' :: ' ' :: t) = true := by
      simp [pyS, List.isPrefixOf]
    rw [this] at hkeep
    simp at hkeep

/-- C7 witness. -/
theorem C7_witness : ¬ (pyS "? ").isPrefixOf (pyS "a") :=
  C7_theorem (pyS "a") (pyS "a") (pyS "a") (by decide)

end UrduSpec

namespace UrduSpec.Difflib

open UrduSpec

/-!
## Claim C6: with equal inputs the matcher returns the full diagonal

For `a = b = t` the chain search of `find_longest_match` only ever stores a
best block lying on the main diagonal (`bi = bj`): the diagonal entry of
every row of the `j2len` dictionary is exact, and every off-diagonal chain
is dominated by a diagonal run that has already been counted (the autojunk
popularity purge only shortens runs, never breaks this domination).  The
four extension loops then grow the diagonal block to the whole of `t`, so
the only opcode is a single `equal` and `compare` marks every line
unchanged.
-/

variable {α : Type} [DecidableEq α]

theorem mem_positionsOfFrom (x : α) :
    ∀ (b : List α) (s j : Nat),
      j ∈ positionsOfFrom x b s ↔ s ≤ j ∧ b.get? (j - s) = some x := by
  intro b
  induction b with
  | nil => intro s j; simp [positionsOfFrom]
  | cons y ys ih =>
      intro s j
      by_cases hy : y = x
      · subst hy
        rw [positionsOfFrom, if_pos rfl]
        simp only [List.mem_cons, ih]
        constructor
        · rintro (rfl | ⟨h1, h2⟩)
          · exact ⟨Nat.le_refl _, by simp [Nat.sub_self]⟩
          · refine ⟨by omega, ?_⟩
            have he : j - s = (j - (s + 1)) + 1 := by omega
            rw [he]
            simpa using h2
        · rintro ⟨h1, h2⟩
          rcases Nat.eq_or_lt_of_le h1 with rfl | hlt
          · exact Or.inl rfl
          · refine Or.inr ⟨by omega, ?_⟩
            have he : j - s = (j - (s + 1)) + 1 := by omega
            rw [he] at h2
            simpa using h2
      · rw [positionsOfFrom, if_neg hy, ih]
        constructor
        · rintro ⟨h1, h2⟩
          refine ⟨by omega, ?_⟩
          have he : j - s = (j - (s + 1)) + 1 := by omega
          rw [he]
          simpa using h2
        · rintro ⟨h1, h2⟩
          rcases Nat.eq_or_lt_of_le h1 with rfl | hlt
          · rw [Nat.sub_self] at h2
            exact absurd (Option.some.inj h2) hy
          · refine ⟨by omega, ?_⟩
            have he : j - s = (j - (s + 1)) + 1 := by omega
            rw [he] at h2
            simpa using h2

theorem pairwise_positionsOfFrom (x : α) :
    ∀ (b : List α) (s : Nat), (positionsOfFrom x b s).Pairwise (fun u v => u < v) := by
  intro b
  induction b with
  | nil => intro s; simp [positionsOfFrom]
  | cons y ys ih =>
      intro s
      by_cases hy : y = x
      · rw [positionsOfFrom, if_pos hy]
        refine List.Pairwise.cons ?_ (ih (s + 1))
        intro j hj
        have := (mem_positionsOfFrom x ys (s + 1) j).mp hj
        omega
      · rw [positionsOfFrom, if_neg hy]
        exact ih (s + 1)

theorem mem_positionsOf (x : α) (b : List α) (j : Nat) :
    j ∈ positionsOf x b ↔ b.get? j = some x := by
  rw [positionsOf, mem_positionsOfFrom]
  simp

theorem mem_b2jGet {isjunk : α → Bool} {b : List α} {x : α} {j : Nat}
    (h : j ∈ b2jGet isjunk b x) : b.get? j = some x := by
  by_cases hc : (isjunk x || isPopular isjunk b x) = true
  · rw [b2jGet, if_pos hc] at h
    exact absurd h (List.not_mem_nil j)
  · rw [b2jGet, if_neg hc] at h
    exact (mem_positionsOf x b j).mp h

theorem self_mem_b2jGet (isjunk : α → Bool) {b : List α} {x : α} {i : Nat}
    (hx : b.get? i = some x) (hne : b2jGet isjunk b x ≠ []) :
    i ∈ b2jGet isjunk b x := by
  by_cases hc : (isjunk x || isPopular isjunk b x) = true
  · exact absurd (by rw [b2jGet, if_pos hc]) hne
  · rw [b2jGet, if_neg hc]
    exact (mem_positionsOf x b i).mpr hx

theorem pairwise_b2jGet (isjunk : α → Bool) (b : List α) (x : α) :
    (b2jGet isjunk b x).Pairwise (fun u v => u < v) := by
  by_cases hc : (isjunk x || isPopular isjunk b x) = true
  · rw [b2jGet, if_pos hc]
    exact List.Pairwise.nil
  · rw [b2jGet, if_neg hc]
    exact pairwise_positionsOfFrom x b 0

theorem get_some_lt_length {t : List α} {i : Nat} {x : α}
    (h : t.get? i = some x) : i < t.length := by
  by_contra hcon
  rw [List.get?_eq_none.mpr (Nat.not_lt.mp hcon)] at h
  exact Option.noConfusion h

/-- Activity of diagonal column `i`: its element survives the junk and
popularity purges (its `b2j` entry is nonempty), so a chain can pass
through it. -/
def colAct (isjunk : α → Bool) (t : List α) (i : Nat) : Bool :=
  match t.get? i with
  | some x => decide (b2jGet isjunk t x ≠ [])
  | none => false

/-- Length of the run of active columns ending at `i`: the value the chain
search's dictionary holds at the main diagonal after row `i`. -/
def diagRun (isjunk : α → Bool) (t : List α) : Nat → Nat
  | 0 => if colAct isjunk t 0 then 1 else 0
  | i + 1 => if colAct isjunk t (i + 1) then diagRun isjunk t i + 1 else 0

theorem diagRun_le (isjunk : α → Bool) (t : List α) :
    ∀ i, diagRun isjunk t i ≤ i + 1 := by
  intro i
  induction i with
  | zero => simp only [diagRun]; split <;> omega
  | succ m ih => simp only [diagRun]; split <;> omega

theorem colAct_true_of_mem {isjunk : α → Bool} {t : List α} {x : α} {j : Nat}
    (hget : t.get? j = some x) (hne : b2jGet isjunk t x ≠ []) :
    colAct isjunk t j = true := by
  simp only [colAct, hget]
  exact decide_eq_true hne

theorem diagRun_zero_of_empty {isjunk : α → Bool} {t : List α} {x : α} {i : Nat}
    (hget : t.get? i = some x) (he : b2jGet isjunk t x = []) :
    diagRun isjunk t i = 0 := by
  have hact : colAct isjunk t i = false := by
    simp only [colAct, hget]
    simp [he]
  cases i with
  | zero => simp [diagRun, hact]
  | succ m => simp [diagRun, hact]

theorem diagRun_succ_of_act {isjunk : α → Bool} {t : List α} {j : Nat}
    (h : colAct isjunk t j = true) :
    diagRun isjunk t j = (if j = 0 then 0 else diagRun isjunk t (j - 1)) + 1 := by
  cases j with
  | zero => simp [diagRun, h]
  | succ m => simp [diagRun, h]

theorem alGet_nil (j : Nat) : alGet [] j = 0 := rfl

theorem alGet_cons (j0 k0 : Nat) (rest : List (Nat × Nat)) (j : Nat) :
    alGet ((j0, k0) :: rest) j = if j0 = j then k0 else alGet rest j := by
  by_cases h : j0 = j
  · have hfind : List.find? (fun p => decide (p.1 = j)) ((j0, k0) :: rest)
        = some (j0, k0) :=
      List.find?_cons_of_pos _ (by simpa using h)
    simp only [alGet, hfind, if_pos h]
  · have hfind : List.find? (fun p => decide (p.1 = j)) ((j0, k0) :: rest)
        = List.find? (fun p => decide (p.1 = j)) rest :=
      List.find?_cons_of_neg _ (by simpa using h)
    simp only [alGet, hfind, if_neg h]

theorem kval_le_diagRun {isjunk : α → Bool} {t : List α} {J : List (Nat × Nat)}
    (hJ : ∀ j, alGet J j ≤ diagRun isjunk t j) {j : Nat}
    (hact : colAct isjunk t j = true) :
    (if j = 0 then 0 else alGet J (j - 1)) + 1 ≤ diagRun isjunk t j := by
  rw [diagRun_succ_of_act hact]
  by_cases hz : j = 0
  · rw [if_pos hz, if_pos hz]
  · rw [if_neg hz, if_neg hz]
    exact Nat.add_le_add_right (hJ (j - 1)) 1

theorem kval_le_row {isjunk : α → Bool} {t : List α} {J : List (Nat × Nat)} {i : Nat}
    (hJr : ∀ j, alGet J j ≤ (if i = 0 then 0 else diagRun isjunk t (i - 1)))
    (hacti : colAct isjunk t i = true) (j : Nat) :
    (if j = 0 then 0 else alGet J (j - 1)) + 1 ≤ diagRun isjunk t i := by
  rw [diagRun_succ_of_act hacti]
  refine Nat.add_le_add_right ?_ 1
  by_cases hz : j = 0
  · rw [if_pos hz]
    exact Nat.zero_le _
  · rw [if_neg hz]
    exact hJr (j - 1)

theorem kval_diag {isjunk : α → Bool} {t : List α} {J : List (Nat × Nat)} {i : Nat}
    (hJd : alGet J (i - 1) = (if i = 0 then 0 else diagRun isjunk t (i - 1)))
    (hacti : colAct isjunk t i = true) :
    (if i = 0 then 0 else alGet J (i - 1)) + 1 = diagRun isjunk t i := by
  rw [diagRun_succ_of_act hacti]
  by_cases hz : i = 0
  · rw [if_pos hz, if_pos hz]
  · rw [if_neg hz, if_neg hz, hJd, if_neg hz]

theorem flmInner_nil (blo bhi i : Nat) (J new : List (Nat × Nat))
    (best : Nat × Nat × Nat) :
    flmInner blo bhi i J [] new best = (new, best) := rfl

theorem flmInner_cons (bhi i : Nat) (J : List (Nat × Nat)) (j : Nat)
    (js : List Nat) (new : List (Nat × Nat)) (best : Nat × Nat × Nat)
    (h2 : j < bhi) :
    flmInner 0 bhi i J (j :: js) new best =
      flmInner 0 bhi i J js ((j, (if j = 0 then 0 else alGet J (j - 1)) + 1) :: new)
        (if best.2.2 < (if j = 0 then 0 else alGet J (j - 1)) + 1 then
           (i + 1 - ((if j = 0 then 0 else alGet J (j - 1)) + 1),
            j + 1 - ((if j = 0 then 0 else alGet J (j - 1)) + 1),
            (if j = 0 then 0 else alGet J (j - 1)) + 1)
         else best) := by
  simp only [flmInner]
  rw [if_neg (by omega : ¬ j < 0), if_neg (Nat.not_le.mpr h2)]

theorem flmRows_nil (b2j : α → List Nat) (t : List α) (blo bhi : Nat)
    (J : List (Nat × Nat)) (best : Nat × Nat × Nat) :
    flmRows b2j t blo bhi [] J best = best := rfl

theorem flmRows_cons (b2j : α → List Nat) (t : List α) (blo bhi i : Nat)
    (rows : List Nat) (J : List (Nat × Nat)) (best : Nat × Nat × Nat) (x : α)
    (hx : t.get? i = some x) :
    flmRows b2j t blo bhi (i :: rows) J best =
      flmRows b2j t blo bhi rows (flmInner blo bhi i J (b2j x) [] best).1
        (flmInner blo bhi i J (b2j x) [] best).2 := by
  simp only [flmRows, hx]

end UrduSpec.Difflib

namespace UrduSpec.Difflib

open UrduSpec

variable {α : Type} [DecidableEq α]

/-- Invariant of the inner chain loop on equal inputs: processing any
suffix of the (sorted) index list of row `i` keeps the best block on the
main diagonal with its end inside `t`, keeps every dictionary entry below
the diagonal-run bounds of its column and of the current row, and ends
with the row's diagonal entry exact and dominating the best size. -/
theorem flmInner_inv (isjunk : α → Bool) (t : List α) {i : Nat} {x : α}
    (hi : t.get? i = some x) (J : List (Nat × Nat))
    (hJ : ∀ j, alGet J j ≤ diagRun isjunk t j)
    (hJr : ∀ j, alGet J j ≤ (if i = 0 then 0 else diagRun isjunk t (i - 1)))
    (hJd : alGet J (i - 1) = (if i = 0 then 0 else diagRun isjunk t (i - 1))) :
    ∀ (js : List Nat) (new : List (Nat × Nat)) (best : Nat × Nat × Nat)
      (r : List (Nat × Nat) × (Nat × Nat × Nat)),
      js.Pairwise (fun u v => u < v) →
      (∀ j ∈ js, j ∈ b2jGet isjunk t x) →
      best.1 = best.2.1 →
      best.1 + best.2.2 ≤ t.length →
      (∀ m, m < i → diagRun isjunk t m ≤ best.2.2) →
      (∀ j, alGet new j ≤ diagRun isjunk t j) →
      (∀ j, alGet new j ≤ diagRun isjunk t i) →
      (i ∈ js ∨ (diagRun isjunk t i ≤ best.2.2 ∧ alGet new i = diagRun isjunk t i)) →
      r = flmInner 0 t.length i J js new best →
      r.2.1 = r.2.2.1 ∧ r.2.1 + r.2.2.2 ≤ t.length ∧ best.2.2 ≤ r.2.2.2 ∧
        (∀ m, m < i → diagRun isjunk t m ≤ r.2.2.2) ∧
        (∀ j, alGet r.1 j ≤ diagRun isjunk t j) ∧
        (∀ j, alGet r.1 j ≤ diagRun isjunk t i) ∧
        diagRun isjunk t i ≤ r.2.2.2 ∧ alGet r.1 i = diagRun isjunk t i := by
  intro js
  induction js with
  | nil =>
      intro new best r _ _ hd hsum hB hn1 hn2 hdisj hr
      rw [flmInner_nil] at hr
      subst hr
      rcases hdisj with hmem | ⟨h1, h2⟩
      · exact absurd hmem (List.not_mem_nil i)
      · exact ⟨hd, hsum, Nat.le_refl _, hB, hn1, hn2, h1, h2⟩
  | cons j js' ih =>
      intro new best r hpw hmem hd hsum hB hn1 hn2 hdisj hr
      have hjb : j ∈ b2jGet isjunk t x := hmem j (List.mem_cons_self j js')
      have hgetj : t.get? j = some x := mem_b2jGet hjb
      have hne : b2jGet isjunk t x ≠ [] := List.ne_nil_of_mem hjb
      have hjn : j < t.length := get_some_lt_length hgetj
      have hactj : colAct isjunk t j = true := colAct_true_of_mem hgetj hne
      have hacti : colAct isjunk t i = true := colAct_true_of_mem hi hne
      have hkj : (if j = 0 then 0 else alGet J (j - 1)) + 1 ≤ diagRun isjunk t j :=
        kval_le_diagRun hJ hactj
      have hki : (if j = 0 then 0 else alGet J (j - 1)) + 1 ≤ diagRun isjunk t i :=
        kval_le_row hJr hacti j
      have hmem' : ∀ j' ∈ js', j' ∈ b2jGet isjunk t x :=
        fun j' hj' => hmem j' (List.mem_cons_of_mem j hj')
      rw [flmInner_cons t.length i J j js' new best hjn] at hr
      rcases Nat.lt_trichotomy j i with hji | hji | hji
      · -- j < i: the entry is dominated by an earlier diagonal run; no update
        have hkbs : (if j = 0 then 0 else alGet J (j - 1)) + 1 ≤ best.2.2 :=
          Nat.le_trans hkj (hB j hji)
        rw [if_neg (Nat.not_lt.mpr hkbs)] at hr
        refine ih ((j, (if j = 0 then 0 else alGet J (j - 1)) + 1) :: new) best r
          hpw.of_cons hmem' hd hsum hB ?_ ?_ ?_ hr
        · intro j'
          by_cases hjj : j = j'
          · subst hjj
            rw [alGet_cons, if_pos rfl]
            exact hkj
          · rw [alGet_cons, if_neg hjj]
            exact hn1 j'
        · intro j'
          by_cases hjj : j = j'
          · subst hjj
            rw [alGet_cons, if_pos rfl]
            exact hki
          · rw [alGet_cons, if_neg hjj]
            exact hn2 j'
        · rcases hdisj with hin | hsec
          · rcases List.mem_cons.mp hin with hie | hin'
            · omega
            · exact Or.inl hin'
          · refine Or.inr ⟨hsec.1, ?_⟩
            rw [alGet_cons, if_neg (by omega : ¬ j = i)]
            exact hsec.2
      · -- j = i: the diagonal entry, exact; an update stays on the diagonal
        subst hji
        have hkeq : (if j = 0 then 0 else alGet J (j - 1)) + 1 = diagRun isjunk t j :=
          kval_diag hJd hacti
        have hjlen : j < t.length := hjn
        by_cases hup : best.2.2 < (if j = 0 then 0 else alGet J (j - 1)) + 1
        · rw [if_pos hup] at hr
          have hkle : (if j = 0 then 0 else alGet J (j - 1)) + 1 ≤ j + 1 := by
            rw [hkeq]
            exact diagRun_le isjunk t j
          obtain ⟨c1, c2, c3, c4, c5, c6, c7, c8⟩ :=
            ih ((j, (if j = 0 then 0 else alGet J (j - 1)) + 1) :: new)
              (j + 1 - ((if j = 0 then 0 else alGet J (j - 1)) + 1),
               j + 1 - ((if j = 0 then 0 else alGet J (j - 1)) + 1),
               (if j = 0 then 0 else alGet J (j - 1)) + 1) r
              hpw.of_cons hmem' rfl
              (show j + 1 - ((if j = 0 then 0 else alGet J (j - 1)) + 1)
                  + ((if j = 0 then 0 else alGet J (j - 1)) + 1) ≤ t.length
                by omega)
              (fun m hm => Nat.le_trans (hB m hm) (Nat.le_of_lt hup))
              (fun j' => by
                by_cases hjj : j = j'
                · subst hjj
                  rw [alGet_cons, if_pos rfl]
                  exact hkeq.le
                · rw [alGet_cons, if_neg hjj]
                  exact hn1 j')
              (fun j' => by
                by_cases hjj : j = j'
                · subst hjj
                  rw [alGet_cons, if_pos rfl]
                  exact hkeq.le
                · rw [alGet_cons, if_neg hjj]
                  exact hn2 j')
              (Or.inr ⟨hkeq.ge, by rw [alGet_cons, if_pos rfl]; exact hkeq⟩) hr
          exact ⟨c1, c2, Nat.le_trans (Nat.le_of_lt hup) c3, c4, c5, c6, c7, c8⟩
        · rw [if_neg hup] at hr
          have hkle : (if j = 0 then 0 else alGet J (j - 1)) + 1 ≤ best.2.2 :=
            Nat.not_lt.mp hup
          refine ih ((j, (if j = 0 then 0 else alGet J (j - 1)) + 1) :: new) best r
            hpw.of_cons hmem' hd hsum hB ?_ ?_ ?_ hr
          · intro j'
            by_cases hjj : j = j'
            · subst hjj
              rw [alGet_cons, if_pos rfl]
              exact hkeq.le
            · rw [alGet_cons, if_neg hjj]
              exact hn1 j'
          · intro j'
            by_cases hjj : j = j'
            · subst hjj
              rw [alGet_cons, if_pos rfl]
              exact hkeq.le
            · rw [alGet_cons, if_neg hjj]
              exact hn2 j'
          · exact Or.inr ⟨Nat.le_trans hkeq.ge hkle,
              by rw [alGet_cons, if_pos rfl]; exact hkeq⟩
      · -- i < j: the diagonal was already processed, so no update can win
        have hsec : diagRun isjunk t i ≤ best.2.2
            ∧ alGet new i = diagRun isjunk t i := by
          rcases hdisj with hin | hs
          · rcases List.mem_cons.mp hin with hie | hin'
            · omega
            · have := (List.pairwise_cons.mp hpw).1 i hin'
              omega
          · exact hs
        have hkbs : (if j = 0 then 0 else alGet J (j - 1)) + 1 ≤ best.2.2 :=
          Nat.le_trans hki hsec.1
        rw [if_neg (Nat.not_lt.mpr hkbs)] at hr
        refine ih ((j, (if j = 0 then 0 else alGet J (j - 1)) + 1) :: new) best r
          hpw.of_cons hmem' hd hsum hB ?_ ?_ ?_ hr
        · intro j'
          by_cases hjj : j = j'
          · subst hjj
            rw [alGet_cons, if_pos rfl]
            exact hkj
          · rw [alGet_cons, if_neg hjj]
            exact hn1 j'
        · intro j'
          by_cases hjj : j = j'
          · subst hjj
            rw [alGet_cons, if_pos rfl]
            exact hki
          · rw [alGet_cons, if_neg hjj]
            exact hn2 j'
        · refine Or.inr ⟨hsec.1, ?_⟩
          rw [alGet_cons, if_neg (by omega : ¬ j = i)]
          exact hsec.2

/-- Invariant of the outer chain loop on equal inputs: after processing
rows `i0, …, i0+cnt-1` with consistent incoming state, the best block is
diagonal, ends inside `t`, and dominates every diagonal run. -/
theorem flmRows_inv (isjunk : α → Bool) (t : List α) :
    ∀ (cnt i0 : Nat) (J : List (Nat × Nat)) (best : Nat × Nat × Nat)
      (r : Nat × Nat × Nat),
      i0 + cnt = t.length →
      best.1 = best.2.1 →
      best.1 + best.2.2 ≤ t.length →
      (∀ m, m < i0 → diagRun isjunk t m ≤ best.2.2) →
      (∀ j, alGet J j ≤ diagRun isjunk t j) →
      (∀ j, alGet J j ≤ (if i0 = 0 then 0 else diagRun isjunk t (i0 - 1))) →
      alGet J (i0 - 1) = (if i0 = 0 then 0 else diagRun isjunk t (i0 - 1)) →
      r = flmRows (b2jGet isjunk t) t 0 t.length (List.range' i0 cnt) J best →
      r.1 = r.2.1 ∧ r.1 + r.2.2 ≤ t.length ∧
        (∀ m, m < t.length → diagRun isjunk t m ≤ r.2.2) := by
  intro cnt
  induction cnt with
  | zero =>
      intro i0 J best r hlen hd hsum hB _ _ _ hr
      rw [show List.range' i0 0 = [] from rfl, flmRows_nil] at hr
      subst hr
      exact ⟨hd, hsum, fun m hm => hB m (by omega)⟩
  | succ cnt ih =>
      intro i0 J best r hlen hd hsum hB hJ hJr hJd hr
      have hi0 : i0 < t.length := by omega
      obtain ⟨x, hx⟩ : ∃ y, t.get? i0 = some y := by
        cases hget : t.get? i0 with
        | none =>
            have hn := List.get?_eq_none.mp hget
            exact absurd hi0 (by omega)
        | some y => exact ⟨y, rfl⟩
      rw [show List.range' i0 (cnt + 1) = i0 :: List.range' (i0 + 1) cnt from rfl,
        flmRows_cons (b2jGet isjunk t) t 0 t.length i0 (List.range' (i0 + 1) cnt)
          J best x hx] at hr
      have hdisj0 : i0 ∈ b2jGet isjunk t x ∨
          (diagRun isjunk t i0 ≤ best.2.2 ∧
            alGet ([] : List (Nat × Nat)) i0 = diagRun isjunk t i0) := by
        by_cases hb : b2jGet isjunk t x = []
        · refine Or.inr ⟨?_, ?_⟩
          · rw [diagRun_zero_of_empty hx hb]
            exact Nat.zero_le _
          · rw [diagRun_zero_of_empty hx hb, alGet_nil]
        · exact Or.inl (self_mem_b2jGet isjunk hx hb)
      obtain ⟨c1, c2, c3, c4, c5, c6, c7, c8⟩ :=
        flmInner_inv isjunk t hx J hJ hJr hJd (b2jGet isjunk t x) [] best
          (flmInner 0 t.length i0 J (b2jGet isjunk t x) [] best)
          (pairwise_b2jGet isjunk t x) (fun j hj => hj) hd hsum hB
          (fun j => by rw [alGet_nil]; exact Nat.zero_le _)
          (fun j => by rw [alGet_nil]; exact Nat.zero_le _)
          hdisj0 rfl
      refine ih (i0 + 1) (flmInner 0 t.length i0 J (b2jGet isjunk t x) [] best).1
        (flmInner 0 t.length i0 J (b2jGet isjunk t x) [] best).2 r
        (by omega) c1 c2 ?_ c5 ?_ ?_ hr
      · intro m hm
        rcases Nat.lt_or_ge m i0 with h | h
        · exact c4 m h
        · have hmi : m = i0 := by omega
          subst hmi
          exact c7
      · intro j
        simpa using c6 j
      · simpa using c8

end UrduSpec.Difflib

namespace UrduSpec.Difflib

open UrduSpec

variable {α : Type} [DecidableEq α]

theorem extendPrev_zero (a b : List α) (pred : α → Bool) (alo blo bj bs : Nat) :
    extendPrev a b pred alo blo 0 bj bs = (0, bj, bs) := rfl

/-- On equal inputs a diagonal block extends backwards all the way to 0
when every element passes `pred`. -/
theorem extendPrev_diag (t : List α) (pred : α → Bool) (hpred : ∀ y, pred y = true) :
    ∀ (bi bs : Nat), bi ≤ t.length →
      extendPrev t t pred 0 0 bi bi bs = (0, 0, bi + bs) := by
  intro bi
  induction bi with
  | zero =>
      intro bs _
      rw [extendPrev_zero, Nat.zero_add]
  | succ b ih =>
      intro bs hb
      obtain ⟨y, hy⟩ : ∃ y, t.get? b = some y := by
        cases hget : t.get? b with
        | none =>
            have hn := List.get?_eq_none.mp hget
            exact absurd hb (by omega)
        | some y => exact ⟨y, rfl⟩
      have h1 : (0:Nat) < b + 1 ∧ (0:Nat) < b + 1 := ⟨Nat.succ_pos b, Nat.succ_pos b⟩
      simp only [extendPrev, Nat.add_sub_cancel]
      rw [if_pos h1]
      simp only [hy]
      rw [if_pos ⟨hpred y, trivial⟩, ih (bs + 1) (by omega)]
      have he : b + (bs + 1) = b + 1 + bs := by omega
      rw [he]

/-- On equal inputs the forward extension with an all-true `pred` grows the
block to the end of `t` whenever the fuel covers the remaining distance. -/
theorem extendNext_top (t : List α) (pred : α → Bool) (hpred : ∀ y, pred y = true) :
    ∀ (fuel s : Nat), s ≤ t.length → t.length - s ≤ fuel →
      extendNext t t pred t.length t.length 0 0 fuel s = t.length := by
  intro fuel
  induction fuel with
  | zero =>
      intro s hs hf
      have hst : s = t.length := by omega
      subst hst
      rfl
  | succ f ih =>
      intro s hs hf
      rcases Nat.lt_or_ge s t.length with hlt | hge
      · obtain ⟨y, hy⟩ : ∃ y, t.get? s = some y := by
          cases hget : t.get? s with
          | none =>
              have hn := List.get?_eq_none.mp hget
              exact absurd hlt (by omega)
          | some y => exact ⟨y, rfl⟩
        simp only [extendNext]
        rw [if_pos ⟨by omega, by omega⟩]
        simp only [Nat.zero_add, hy]
        rw [if_pos ⟨hpred y, trivial⟩]
        exact ih (s + 1) (by omega) (by omega)
      · have hst : s = t.length := by omega
        subst hst
        simp only [extendNext]
        rw [if_neg (by omega : ¬ ((0:Nat) + t.length < t.length ∧
          (0:Nat) + t.length < t.length))]

/-- The forward extension is a no-op once the block already reaches the
end of the searched range. -/
theorem extendNext_stop (a b : List α) (pred : α → Bool) (n : Nat) :
    ∀ (fuel s : Nat), n ≤ s → extendNext a b pred n n 0 0 fuel s = s := by
  intro fuel s hs
  cases fuel with
  | zero => rfl
  | succ f =>
      simp only [extendNext]
      rw [if_neg (by omega : ¬ ((0:Nat) + s < n ∧ (0:Nat) + s < n))]

/-- On equal inputs `find_longest_match` over the whole rectangle returns
the full diagonal: the chain search leaves a diagonal best block and the
non-junk extension loops grow it to all of `t` (with `ndiff`'s line junk,
nothing is junk). -/
theorem flm_diag (isjunk : α → Bool) (hj : ∀ y, isjunk y = false) (t : List α) :
    find_longest_match isjunk t t 0 t.length 0 t.length = (0, 0, t.length) := by
  have hpred : ∀ y, (fun y => !isjunk y) y = true := fun y => by simp [hj y]
  obtain ⟨hd, hsum, -⟩ :=
    flmRows_inv isjunk t t.length 0 [] (0, 0, 0)
      (flmRows (b2jGet isjunk t) t 0 t.length (List.range' 0 t.length) [] (0, 0, 0))
      (by omega) rfl (Nat.zero_le _)
      (fun m hm => absurd hm (Nat.not_lt_zero m))
      (fun j => by rw [alGet_nil]; exact Nat.zero_le _)
      (fun j => by rw [alGet_nil]; simp)
      (by rw [alGet_nil]; simp) rfl
  rcases hbest : flmRows (b2jGet isjunk t) t 0 t.length (List.range' 0 t.length)
      [] (0, 0, 0) with ⟨bi, bj, bs⟩
  rw [hbest] at hd hsum
  have hdd : bi = bj := hd
  subst hdd
  have hss : bi + bs ≤ t.length := hsum
  unfold find_longest_match
  rw [Nat.sub_zero]
  simp only [hbest, extendPrev_diag t (fun y => !isjunk y) hpred bi bs (by omega),
    extendNext_top t (fun y => !isjunk y) hpred t.length (bi + bs) hss (by omega),
    extendPrev_zero,
    extendNext_stop t t (fun y => isjunk y) t.length t.length t.length
      (Nat.le_refl t.length)]

end UrduSpec.Difflib

namespace UrduSpec.Difflib

open UrduSpec

variable {α : Type} [DecidableEq α]

/-- On equal nonempty inputs the recursion finds the single full-diagonal
block. -/
theorem matchingBlocksGo_self (isjunk : α → Bool) (hj : ∀ y, isjunk y = false)
    (t : List α) (ht : t ≠ []) (fuel : Nat) :
    matchingBlocksGo isjunk t t (fuel + 1) 0 t.length 0 t.length =
      [(0, 0, t.length)] := by
  have hn : t.length ≠ 0 := fun h => ht (List.length_eq_zero.mp h)
  simp only [matchingBlocksGo, flm_diag isjunk hj t]
  rw [if_pos ⟨hn, Nat.le_refl 0, Nat.le_refl 0, by omega, by omega, trivial⟩]
  rw [if_neg (by omega : ¬ ((0:Nat) < 0 ∧ (0:Nat) < 0)),
    if_neg (by omega : ¬ ((0:Nat) + t.length < t.length ∧
      (0:Nat) + t.length < t.length))]
  rfl

/-- On equal nonempty inputs the matching blocks are the full diagonal and
the sentinel. -/
theorem get_matching_blocks_self (isjunk : α → Bool) (hj : ∀ y, isjunk y = false)
    (t : List α) (ht : t ≠ []) :
    get_matching_blocks isjunk t t =
      [(0, 0, t.length), (t.length, t.length, 0)] := by
  have hn : t.length ≠ 0 := fun h => ht (List.length_eq_zero.mp h)
  rw [get_matching_blocks,
    matchingBlocksGo_self isjunk hj t ht (t.length + t.length)]
  simp [collapseGo, hn]

/-- On equal nonempty inputs the single opcode is one full `equal`. -/
theorem get_opcodes_self (isjunk : α → Bool) (hj : ∀ y, isjunk y = false)
    (t : List α) (ht : t ≠ []) :
    get_opcodes isjunk t t = [(DTag.equal, 0, t.length, 0, t.length)] := by
  have hn : t.length ≠ 0 := fun h => ht (List.length_eq_zero.mp h)
  rw [get_opcodes, get_matching_blocks_self isjunk hj t ht]
  simp [getOpcodesGo, hn]

/-- The differ on equal inputs dumps every line unchanged. -/
theorem compare_self (t : List PyStr) :
    compare t t = t.map (fun s => ' ' :: ' ' :: s) := by
  by_cases ht : t = []
  · subst ht
    rfl
  · rw [compare, get_opcodes_self nolinejunk (fun y => rfl) t ht]
    simp only [List.flatMap_cons, List.flatMap_nil, List.append_nil, compareOp]
    rw [show dump ' ' t 0 t.length = (pySlice t 0 t.length).map
        (fun s => ' ' :: ' ' :: s) from rfl, pySlice_full]

/-- The delta of `ndiff` on equal inputs: every line is the original
prefixed with two blanks. -/
theorem ndiff_self (t : List PyStr) :
    ndiff t t = t.map (fun s => ' ' :: ' ' :: s) :=
  compare_self t

end UrduSpec.Difflib

namespace UrduSpec

open UrduSpec

/-- The local renderer on an all-equal delta recovers the tokens. -/
theorem tokensLocal_two_space (ts : List PyStr) :
    UrduSpeechWriter.diffTokens (ts.map (fun s => ' ' :: ' ' :: s)) = ts := by
  induction ts with
  | nil => rfl
  | cons s rest ih =>
      simp only [List.map_cons, UrduSpeechWriter.diffTokens]
      rw [if_neg (by simp [pyS, List.isPrefixOf]),
        if_neg (by simp [pyS, List.isPrefixOf]),
        if_neg (by simp [pyS, List.isPrefixOf]), ih]
      rfl

/-- The cloud renderer on an all-equal delta recovers the tokens. -/
theorem tokensCloud_two_space (ts : List PyStr) :
    UrduSpeechWriterCloud.diffTokens (ts.map (fun s => ' ' :: ' ' :: s)) = ts := by
  induction ts with
  | nil => rfl
  | cons s rest ih =>
      simp only [List.map_cons, UrduSpeechWriterCloud.diffTokens]
      rw [if_neg (by simp [pyS, List.isPrefixOf]),
        if_neg (by simp [pyS, List.isPrefixOf]),
        if_pos (by simp [pyS, List.isPrefixOf]), ih]
      rfl

/-! ## Claim C6, amended theorem -/

/-- C6 (amended): on identical inputs the pipeline marks every token
unchanged — the `ndiff` delta is exactly the whitespace-split tokens of
`x` each prefixed by two blanks, both renderers return the token list of
`x` itself (so the rendering carries no insertion or deletion markup),
and each variant's `diff_text(x, x)` is the tokens of `x` joined by
single spaces: `x` itself exactly when `x` is already single-space
separated, and a whitespace-normalised `x` otherwise (see the
counterexample for a doubled space). -/
theorem C6_theorem : ∀ x : PyStr,
    Difflib.ndiff (pySplit x) (pySplit x)
        = (pySplit x).map (fun s => ' ' :: ' ' :: s)
    ∧ UrduSpeechWriter.diffTokens (Difflib.ndiff (pySplit x) (pySplit x))
        = pySplit x
    ∧ UrduSpeechWriterCloud.diffTokens (Difflib.ndiff (pySplit x) (pySplit x))
        = pySplit x
    ∧ UrduSpeechWriter.diff_text x x = List.intercalate (pyS " ") (pySplit x)
    ∧ UrduSpeechWriterCloud.diff_text x x
        = List.intercalate (pyS " ") (pySplit x) := by
  intro x
  refine ⟨Difflib.ndiff_self _, ?_, ?_, ?_, ?_⟩
  · rw [Difflib.ndiff_self]
    exact tokensLocal_two_space _
  · rw [Difflib.ndiff_self]
    exact tokensCloud_two_space _
  · rw [UrduSpeechWriter.diff_text, Difflib.ndiff_self, tokensLocal_two_space]
  · rw [UrduSpeechWriterCloud.diff_text, Difflib.ndiff_self, tokensCloud_two_space]

end UrduSpec
